import Mathlib

/-!
Shallow embedding of `util/cythonpp.py` (gevent's multi-configuration
source preprocessor) and proofs about its configuration algebra, macro
expander, alignment, merge and directive regeneration.

Python `Condition` objects are `(name, bool)` tuples; `Configuration`
objects are interned as `tuple(sorted(frozenset(conditions)))`, so a
configuration is modelled by its canonical sorted duplicate-free list of
conditions.  `ConfigurationGroups` objects are interned as sorted tuples
of configurations (duplicates retained); Python sorts them with the
`frozenset` subset comparison, which is only a partial order, so the
model uses a total lexicographic order as the canonical sort — group
values still represent exactly the multiset of member configurations.
All text is handled as it appears in single lines read from a file
(no interior newline characters).
-/

namespace Cythonpp

/-- A single CPP condition (`Condition` in the source): the directive
parameter string and a truth value. -/
abbrev Cond := String × Bool

/-- Model of `Condition.inverted`: same name, opposite truth value. -/
def inverted (c : Cond) : Cond := (c.1, !c.2)

instance {ε α : Type} [DecidableEq ε] [DecidableEq α] : DecidableEq (Except ε α)
  | .error a, .error b =>
      if h : a = b then isTrue (h ▸ rfl)
      else isFalse (fun he => h (Except.error.inj he))
  | .error _, .ok _ => isFalse Except.noConfusion
  | .ok _, .error _ => isFalse Except.noConfusion
  | .ok a, .ok b =>
      if h : a = b then isTrue (h ▸ rfl)
      else isFalse (fun he => h (Except.ok.inj he))

/-- Lexicographic order on character lists by code point, i.e. Python's
string `<`. -/
def strLtList : List Char → List Char → Prop
  | [], [] => False
  | [], _ :: _ => True
  | _ :: _, [] => False
  | c :: cs, d :: ds => c.toNat < d.toNat ∨ (c.toNat = d.toNat ∧ strLtList cs ds)

instance decStrLtList : (x y : List Char) → Decidable (strLtList x y)
  | [], [] => isFalse (fun h => h)
  | [], _ :: _ => isTrue trivial
  | _ :: _, [] => isFalse (fun h => h)
  | c :: cs, d :: ds =>
      have : Decidable (strLtList cs ds) := decStrLtList cs ds
      inferInstanceAs (Decidable (c.toNat < d.toNat ∨ (c.toNat = d.toNat ∧ strLtList cs ds)))

theorem charToNat_inj {a b : Char} (h : a.toNat = b.toNat) : a = b :=
  Char.ext (UInt32.ext h)

theorem strLtList_irrefl : ∀ l : List Char, ¬ strLtList l l
  | [] => fun h => h
  | _ :: cs => by
      rintro (h | ⟨-, h⟩)
      · exact lt_irrefl _ h
      · exact strLtList_irrefl cs h

theorem strLtList_trans : ∀ {a b c : List Char},
    strLtList a b → strLtList b c → strLtList a c
  | [], [], _, h, _ => absurd h (fun h => h)
  | [], _ :: _, [], _, h => absurd h (fun h => h)
  | [], _ :: _, _ :: _, _, _ => trivial
  | _ :: _, [], _, h, _ => absurd h (fun h => h)
  | _ :: _, _ :: _, [], _, h => absurd h (fun h => h)
  | a :: as, b :: bs, c :: cs, h1, h2 => by
      rcases h1 with h1 | ⟨e1, h1⟩ <;> rcases h2 with h2 | ⟨e2, h2⟩
      · exact Or.inl (lt_trans h1 h2)
      · exact Or.inl (e2 ▸ h1)
      · exact Or.inl (e1 ▸ h2)
      · exact Or.inr ⟨e1.trans e2, strLtList_trans h1 h2⟩

theorem strLtList_trichotomy : ∀ a b : List Char,
    strLtList a b ∨ a = b ∨ strLtList b a
  | [], [] => Or.inr (Or.inl rfl)
  | [], _ :: _ => Or.inl trivial
  | _ :: _, [] => Or.inr (Or.inr trivial)
  | a :: as, b :: bs => by
      rcases Nat.lt_trichotomy a.toNat b.toNat with h | h | h
      · exact Or.inl (Or.inl h)
      · rcases strLtList_trichotomy as bs with h2 | h2 | h2
        · exact Or.inl (Or.inr ⟨h, h2⟩)
        · exact Or.inr (Or.inl (by rw [charToNat_inj h, h2]))
        · exact Or.inr (Or.inr (Or.inr ⟨h.symm, h2⟩))
      · exact Or.inr (Or.inr (Or.inl h))

/-- Python string `<` on the underlying character sequences. -/
def strLt (a b : String) : Prop := strLtList a.toList b.toList

instance : DecidableRel strLt := fun a b =>
  inferInstanceAs (Decidable (strLtList a.toList b.toList))

theorem strLt_irrefl (a : String) : ¬ strLt a a := strLtList_irrefl a.toList

theorem strLt_trans {a b c : String} (h1 : strLt a b) (h2 : strLt b c) :
    strLt a c := strLtList_trans h1 h2

theorem strLt_trichotomy (a b : String) : strLt a b ∨ a = b ∨ strLt b a := by
  rcases strLtList_trichotomy a.toList b.toList with h | h | h
  · exact Or.inl h
  · exact Or.inr (Or.inl (String.ext h))
  · exact Or.inr (Or.inr h)

/-- Bool order used by Python tuple comparison: `False < True`. -/
def boolLe (x y : Bool) : Prop := x = y ∨ (x = false ∧ y = true)

def boolLt (x y : Bool) : Prop := x = false ∧ y = true

instance : DecidableRel boolLe := fun x y =>
  inferInstanceAs (Decidable (x = y ∨ (x = false ∧ y = true)))

instance : DecidableRel boolLt := fun x y =>
  inferInstanceAs (Decidable (x = false ∧ y = true))

/-- Python tuple `<` on `(str, bool)` pairs: name lexicographically,
then `False < True`. -/
def condLt (a b : Cond) : Prop := strLt a.1 b.1 ∨ (a.1 = b.1 ∧ boolLt a.2 b.2)

/-- Python tuple `<=` on `(str, bool)` pairs. -/
def condLe (a b : Cond) : Prop := strLt a.1 b.1 ∨ (a.1 = b.1 ∧ boolLe a.2 b.2)

instance : DecidableRel condLt := fun a b =>
  inferInstanceAs (Decidable (strLt a.1 b.1 ∨ (a.1 = b.1 ∧ boolLt a.2 b.2)))

instance : DecidableRel condLe := fun a b =>
  inferInstanceAs (Decidable (strLt a.1 b.1 ∨ (a.1 = b.1 ∧ boolLe a.2 b.2)))

theorem condLt_irrefl (a : Cond) : ¬ condLt a a := by
  rintro (h | ⟨-, h⟩)
  · exact strLt_irrefl _ h
  · rcases h with ⟨h1, h2⟩; rw [h1] at h2; cases h2

theorem condLt_trans {a b c : Cond} (h1 : condLt a b) (h2 : condLt b c) :
    condLt a c := by
  rcases h1 with h1 | ⟨e1, h1⟩ <;> rcases h2 with h2 | ⟨e2, h2⟩
  · exact Or.inl (strLt_trans h1 h2)
  · exact Or.inl (e2 ▸ h1)
  · exact Or.inl (e1 ▸ h2)
  · refine Or.inr ⟨e1.trans e2, ?_⟩
    rcases h1 with ⟨x1, y1⟩; rcases h2 with ⟨x2, y2⟩
    rw [y1] at x2; cases x2

theorem condLt_trichotomy (a b : Cond) : condLt a b ∨ a = b ∨ condLt b a := by
  rcases strLt_trichotomy a.1 b.1 with h | h | h
  · exact Or.inl (Or.inl h)
  · cases ha : a.2 <;> cases hb : b.2
    · exact Or.inr (Or.inl (Prod.ext h (ha.trans hb.symm)))
    · exact Or.inl (Or.inr ⟨h, ha, hb⟩)
    · exact Or.inr (Or.inr (Or.inr ⟨h.symm, hb, ha⟩))
    · exact Or.inr (Or.inl (Prod.ext h (ha.trans hb.symm)))
  · exact Or.inr (Or.inr (Or.inl h))

theorem condLt_asymm {a b : Cond} (h : condLt a b) : ¬ condLt b a := by
  intro h2; exact condLt_irrefl a (condLt_trans h h2)

theorem condLe_total (a b : Cond) : condLe a b ∨ condLe b a := by
  rcases strLt_trichotomy a.1 b.1 with h | h | h
  · exact Or.inl (Or.inl h)
  · cases ha : a.2 <;> cases hb : b.2
    · exact Or.inl (Or.inr ⟨h, Or.inl (ha.trans hb.symm)⟩)
    · exact Or.inl (Or.inr ⟨h, Or.inr ⟨ha, hb⟩⟩)
    · exact Or.inr (Or.inr ⟨h.symm, Or.inr ⟨hb, ha⟩⟩)
    · exact Or.inl (Or.inr ⟨h, Or.inl (ha.trans hb.symm)⟩)
  · exact Or.inr (Or.inl h)

theorem condLe_trans {a b c : Cond} (h1 : condLe a b) (h2 : condLe b c) :
    condLe a c := by
  rcases h1 with h1 | ⟨e1, h1⟩ <;> rcases h2 with h2 | ⟨e2, h2⟩
  · exact Or.inl (strLt_trans h1 h2)
  · exact Or.inl (e2 ▸ h1)
  · exact Or.inl (e1 ▸ h2)
  · refine Or.inr ⟨e1.trans e2, ?_⟩
    rcases h1 with h1 | ⟨x1, y1⟩ <;> rcases h2 with h2 | ⟨x2, y2⟩
    · exact Or.inl (h1.trans h2)
    · exact Or.inr ⟨h1.trans x2, y2⟩
    · exact Or.inr ⟨x1, h2 ▸ y1⟩
    · exact Or.inr ⟨x1, y2⟩

theorem condLe_antisymm {a b : Cond} (h1 : condLe a b) (h2 : condLe b a) :
    a = b := by
  rcases h1 with h1 | ⟨e1, h1⟩ <;> rcases h2 with h2 | ⟨e2, h2⟩
  · exact absurd (strLt_trans h1 h2) (strLt_irrefl _)
  · exact absurd h1 (e2 ▸ strLt_irrefl _)
  · exact absurd h2 (e1 ▸ strLt_irrefl _)
  · refine Prod.ext e1 ?_
    rcases h1 with h1 | ⟨x1, y1⟩
    · exact h1
    · rcases h2 with h2 | ⟨x2, y2⟩
      · exact h2.symm
      · rw [x1] at y2; cases y2

instance : IsTotal Cond condLe := ⟨condLe_total⟩
instance : IsTrans Cond condLe := ⟨fun _ _ _ => condLe_trans⟩
instance : IsAntisymm Cond condLe := ⟨fun _ _ => condLe_antisymm⟩

/-- A `Configuration` value: the canonical sorted duplicate-free list of
conditions, exactly the interning key `tuple(sorted(frozenset(...)))`
used by `Configuration.__new__`. -/
abbrev Config := List Cond

/-- Build the canonical form of a configuration from any list of
conditions (`Configuration(iterable)`; the source also rejects an empty
result, which is checked at the call sites that can produce one). -/
def mkConfig (l : List Cond) : Config := l.dedup.insertionSort condLe

theorem mem_mkConfig {a : Cond} {l : List Cond} :
    a ∈ mkConfig l ↔ a ∈ l := by
  unfold mkConfig
  rw [List.mem_insertionSort, List.mem_dedup]

theorem mkConfig_nodup (l : List Cond) : (mkConfig l).Nodup :=
  (List.perm_insertionSort condLe l.dedup).nodup_iff.mpr l.nodup_dedup

theorem mkConfig_sorted (l : List Cond) : (mkConfig l).Sorted condLe :=
  List.sorted_insertionSort condLe l.dedup

theorem mkConfig_eq_of_mem_iff {l1 l2 : List Cond}
    (h : ∀ a, a ∈ l1 ↔ a ∈ l2) : mkConfig l1 = mkConfig l2 := by
  apply List.eq_of_perm_of_sorted _ (mkConfig_sorted l1) (mkConfig_sorted l2)
  refine ((List.perm_insertionSort condLe l1.dedup).trans ?_).trans
    (List.perm_insertionSort condLe l2.dedup).symm
  refine (List.perm_ext_iff_of_nodup l1.nodup_dedup l2.nodup_dedup).mpr ?_
  intro a
  rw [List.mem_dedup, List.mem_dedup]
  exact h a

theorem mkConfig_of_sorted_nodup {l : List Cond}
    (hs : l.Sorted condLe) (hn : l.Nodup) : mkConfig l = l := by
  apply List.eq_of_perm_of_sorted _ (mkConfig_sorted l) hs
  have h2 : l.dedup = l := List.dedup_eq_self.mpr hn
  unfold mkConfig
  rw [h2]
  exact List.perm_insertionSort condLe l

theorem mkConfig_mkConfig (l : List Cond) :
    mkConfig (mkConfig l) = mkConfig l :=
  mkConfig_of_sorted_nodup (mkConfig_sorted l) (mkConfig_nodup l)

/-- Lexicographic strict order on condition lists (used as the model's
canonical total order on configurations; see the header note). -/
def configLt : Config → Config → Prop
  | [], [] => False
  | [], _ :: _ => True
  | _ :: _, [] => False
  | a :: as, b :: bs => condLt a b ∨ (a = b ∧ configLt as bs)

/-- Lexicographic `≤` on condition lists. -/
def configLe : Config → Config → Prop
  | [], _ => True
  | _ :: _, [] => False
  | a :: as, b :: bs => condLt a b ∨ (a = b ∧ configLe as bs)

instance decConfigLt : (x y : Config) → Decidable (configLt x y)
  | [], [] => isFalse (fun h => h)
  | [], _ :: _ => isTrue trivial
  | _ :: _, [] => isFalse (fun h => h)
  | a :: as, b :: bs =>
      have : Decidable (configLt as bs) := decConfigLt as bs
      inferInstanceAs (Decidable (condLt a b ∨ (a = b ∧ configLt as bs)))

instance decConfigLe : (x y : Config) → Decidable (configLe x y)
  | [], _ => isTrue trivial
  | _ :: _, [] => isFalse (fun h => h)
  | a :: as, b :: bs =>
      have : Decidable (configLe as bs) := decConfigLe as bs
      inferInstanceAs (Decidable (condLt a b ∨ (a = b ∧ configLe as bs)))

theorem configLe_total : ∀ x y : Config, configLe x y ∨ configLe y x
  | [], _ => Or.inl trivial
  | _ :: _, [] => Or.inr trivial
  | a :: as, b :: bs => by
      rcases condLt_trichotomy a b with h | h | h
      · exact Or.inl (Or.inl h)
      · rcases configLe_total as bs with h2 | h2
        · exact Or.inl (Or.inr ⟨h, h2⟩)
        · exact Or.inr (Or.inr ⟨h.symm, h2⟩)
      · exact Or.inr (Or.inl h)

theorem configLe_trans : ∀ {x y z : Config},
    configLe x y → configLe y z → configLe x z
  | [], _, _, _, _ => trivial
  | _ :: _, [], _, h, _ => absurd h (fun h => h)
  | _ :: _, _ :: _, [], _, h => absurd h (fun h => h)
  | a :: as, b :: bs, c :: cs, h1, h2 => by
      rcases h1 with h1 | ⟨e1, h1⟩ <;> rcases h2 with h2 | ⟨e2, h2⟩
      · exact Or.inl (condLt_trans h1 h2)
      · exact Or.inl (e2 ▸ h1)
      · exact Or.inl (e1 ▸ h2)
      · exact Or.inr ⟨e1.trans e2, configLe_trans h1 h2⟩

theorem configLe_antisymm : ∀ {x y : Config},
    configLe x y → configLe y x → x = y
  | [], [], _, _ => rfl
  | [], _ :: _, _, h => absurd h (fun h => h)
  | _ :: _, [], h, _ => absurd h (fun h => h)
  | a :: as, b :: bs, h1, h2 => by
      rcases h1 with h1 | ⟨e1, h1⟩ <;> rcases h2 with h2 | ⟨e2, h2⟩
      · exact absurd h2 (condLt_asymm h1)
      · exact absurd h1 (e2 ▸ condLt_irrefl _)
      · exact absurd h2 (e1 ▸ condLt_irrefl _)
      · exact congrArg₂ (· :: ·) e1 (configLe_antisymm h1 h2)

instance : IsTotal Config configLe := ⟨configLe_total⟩
instance : IsTrans Config configLe := ⟨fun _ _ _ => configLe_trans⟩
instance : IsAntisymm Config configLe := ⟨fun _ _ => configLe_antisymm⟩

/-- A `ConfigurationGroups` value: the canonically sorted tuple of its
member configurations, duplicates retained (`tuple(sorted(tags))`). -/
abbrev Group := List Config

/-- Build a group from any list of configurations
(`ConfigurationGroups(tags)`). -/
def mkGroup (l : List Config) : Group := l.insertionSort configLe

theorem mkGroup_perm (l : List Config) : List.Perm (mkGroup l) l :=
  List.perm_insertionSort configLe l

theorem mkGroup_length (l : List Config) : (mkGroup l).length = l.length :=
  List.length_insertionSort configLe l

theorem mkGroup_sorted (l : List Config) : (mkGroup l).Sorted configLe :=
  List.sorted_insertionSort configLe l

theorem mkGroup_eq_of_perm {l1 l2 : List Config} (h : List.Perm l1 l2) :
    mkGroup l1 = mkGroup l2 :=
  List.eq_of_perm_of_sorted ((mkGroup_perm l1).trans (h.trans (mkGroup_perm l2).symm))
    (mkGroup_sorted l1) (mkGroup_sorted l2)

theorem mkGroup_of_sorted {l : List Config} (hs : l.Sorted configLe) :
    mkGroup l = l :=
  List.eq_of_perm_of_sorted (mkGroup_perm l) (mkGroup_sorted l) hs

/-- Model of `ConfigurationGroups.__add__`: concatenate the members and rebuild
(the sorted tuple of the combined list). -/
def groupAdd (g1 g2 : Group) : Group := mkGroup (g1 ++ g2)

/-- Lookup in the `conds` dict of `Configuration.is_impossible`,
modelled as an association list. -/
def lookupName (n : String) : List (String × Bool) → Option Bool
  | [] => none
  | (m, v) :: rest => if m = n then some v else lookupName n rest

/-- Assignment `conds[cond_name] = cond_setting`. -/
def insertName (n : String) (v : Bool) : List (String × Bool) → List (String × Bool)
  | [] => [(n, v)]
  | (m, w) :: rest => if m = n then (m, v) :: rest else (m, w) :: insertName n v rest

/-- Loop body of `Configuration.is_impossible`: walk the conditions,
remembering each name's last setting, and report a contradiction as soon
as a name reappears with a different setting. -/
def isImpossibleAux : List Cond → List (String × Bool) → Bool
  | [], _ => false
  | (n, v) :: rest, conds =>
    match lookupName n conds with
    | some v2 => if v2 ≠ v then true else isImpossibleAux rest (insertName n v conds)
    | none => isImpossibleAux rest (insertName n v conds)

/-- Model of `Configuration.is_impossible` (the Python function returns `True`
or falls through returning `None`; both truthiness outcomes are modelled
by the `Bool`). -/
def isImpossible (c : Config) : Bool := isImpossibleAux c []

theorem lookupName_insertName (a n : String) (v : Bool) :
    ∀ m : List (String × Bool),
      lookupName a (insertName n v m) =
        if n = a then some v else lookupName a m
  | [] => by
      by_cases h : n = a <;> simp [insertName, lookupName, h]
  | (m0, w) :: rest => by
      by_cases h1 : m0 = n
      · subst h1
        by_cases h2 : m0 = a
        · subst h2; simp [insertName, lookupName]
        · simp [insertName, lookupName, h2]
      · by_cases h2 : m0 = a
        · subst h2
          have : ¬ n = m0 := fun h => h1 h.symm
          simp [insertName, lookupName, h1, this]
        · simp [insertName, lookupName, h1, h2, lookupName_insertName a n v rest]

theorem isImpossibleAux_cons (n : String) (v : Bool) (rest : List Cond)
    (m : List (String × Bool)) :
    isImpossibleAux ((n, v) :: rest) m =
      match lookupName n m with
      | some v2 => if v2 ≠ v then true else isImpossibleAux rest (insertName n v m)
      | none => isImpossibleAux rest (insertName n v m) := rfl

theorem isImpossibleAux_true_iff :
    ∀ (l : List Cond) (m : List (String × Bool)),
      isImpossibleAux l m = true ↔
        ∃ n v, (n, v) ∈ l ∧ (lookupName n m = some (!v) ∨ (n, !v) ∈ l)
  | [], m => by simp [isImpossibleAux]
  | (n, v) :: rest, m => by
      have IH := isImpossibleAux_true_iff rest (insertName n v m)
      have hcantail : ∀ (a : String) (b : Bool), (a, b) ∈ rest →
          (lookupName a (insertName n v m) = some (!b) ∨ (a, !b) ∈ rest) →
          ∃ p q, (p, q) ∈ (n, v) :: rest ∧
            (lookupName p m = some (!q) ∨ (p, !q) ∈ (n, v) :: rest) := by
        intro a b hmem hdisj
        refine ⟨a, b, List.mem_cons_of_mem _ hmem, ?_⟩
        rcases hdisj with hl | hr
        · rw [lookupName_insertName] at hl
          by_cases hna : n = a
          · subst hna
            have hv : v = !b := by simpa using hl
            exact Or.inr (by rw [hv] at *; exact List.mem_cons_self _ _)
          · rw [if_neg hna] at hl
            exact Or.inl hl
        · exact Or.inr (List.mem_cons_of_mem _ hr)
      have htailcan : ∀ (a : String) (b : Bool), (a, b) ∈ rest →
          (lookupName a m = some (!b) ∨ (a, !b) ∈ (n, v) :: rest) →
          (lookupName n m = none ∨ lookupName n m = some v) →
          ∃ p q, (p, q) ∈ rest ∧
            (lookupName p (insertName n v m) = some (!q) ∨ (p, !q) ∈ rest) := by
        intro a b hmem hdisj hn
        rcases hdisj with hl | hr
        · by_cases hna : a = n
          · subst hna
            rcases hn with hn | hn
            · rw [hn] at hl; cases hl
            · rw [hn] at hl
              have hv : v = !b := Option.some.inj hl
              exact ⟨a, b, hmem, Or.inl (by
                rw [lookupName_insertName, if_pos rfl, hv])⟩
          · exact ⟨a, b, hmem, Or.inl (by
              rw [lookupName_insertName, if_neg (fun h => hna h.symm)]
              exact hl)⟩
        · rcases List.mem_cons.mp hr with he | hr2
          · injection he with he1 he2
            subst he1
            exact ⟨a, b, hmem, Or.inl (by
              rw [lookupName_insertName, if_pos rfl, he2])⟩
          · exact ⟨a, b, hmem, Or.inr hr2⟩
      rcases h2 : lookupName n m with _ | v2
      · rw [isImpossibleAux_cons, h2]
        constructor
        · intro h
          rcases IH.mp h with ⟨a, b, hmem, hdisj⟩
          exact hcantail a b hmem hdisj
        · rintro ⟨a, b, hmem, hdisj⟩
          apply IH.mpr
          rcases List.mem_cons.mp hmem with he | hmem2
          · injection he with he1 he2
            subst he1; subst he2
            rcases hdisj with hl | hr
            · rw [h2] at hl; cases hl
            · rcases List.mem_cons.mp hr with he | hr2
              · exact absurd (congrArg Prod.snd he).symm (by cases b <;> simp)
              · exact ⟨a, !b, hr2, Or.inl (by
                  rw [lookupName_insertName, if_pos rfl, Bool.not_not])⟩
          · exact htailcan a b hmem2 hdisj (Or.inl h2)
      · rw [isImpossibleAux_cons, h2]
        by_cases hv2 : v2 = v
        · subst hv2
          simp only [ne_eq, not_true_eq_false, if_false]
          constructor
          · intro h
            rcases IH.mp h with ⟨a, b, hmem, hdisj⟩
            exact hcantail a b hmem hdisj
          · rintro ⟨a, b, hmem, hdisj⟩
            apply IH.mpr
            rcases List.mem_cons.mp hmem with he | hmem2
            · injection he with he1 he2
              subst he1; subst he2
              rcases hdisj with hl | hr
              · rw [h2] at hl
                exact absurd (Option.some.inj hl) (by cases b <;> simp)
              · rcases List.mem_cons.mp hr with he | hr2
                · exact absurd (congrArg Prod.snd he).symm (by cases b <;> simp)
                · exact ⟨a, !b, hr2, Or.inl (by
                    rw [lookupName_insertName, if_pos rfl, Bool.not_not])⟩
            · exact htailcan a b hmem2 hdisj (Or.inr h2)
        · have hne : v2 ≠ v := hv2
          simp only [ne_eq, hne, not_false_eq_true, if_true, true_iff]
          refine ⟨n, v, List.mem_cons_self _ _, Or.inl ?_⟩
          rw [h2]
          have : v2 = !v := by cases v <;> cases v2 <;> simp_all
          rw [this]

theorem isImpossible_iff (c : Config) :
    isImpossible c = true ↔ ∃ n, (n, true) ∈ c ∧ (n, false) ∈ c := by
  unfold isImpossible
  rw [isImpossibleAux_true_iff]
  constructor
  · rintro ⟨n, v, h1, h2⟩
    rcases h2 with h2 | h2
    · cases h2
    · cases v
      · exact ⟨n, by simpa using h2, h1⟩
      · exact ⟨n, h1, by simpa using h2⟩
  · rintro ⟨n, h1, h2⟩
    exact ⟨n, true, h1, Or.inr (by simpa using h2)⟩

/-- All tuples of length `n` over `xs` (`itertools.product(xs, repeat=n)`). -/
def selfProduct {α : Type} : Nat → List α → List (List α)
  | 0, _ => [[]]
  | n + 1, xs => xs.flatMap (fun x => (selfProduct n xs).map (x :: ·))

/-- Python `set.add`, preserving first-insertion order. -/
def insertSet {α : Type} [DecidableEq α] (x : α) (l : List α) : List α :=
  if x ∈ l then l else l ++ [x]

/-- Helper `flattened` in `get_permutations_of_configurations`: the union of a
tuple of configurations (Python forms `set(tuple)`, sorts it, and
concatenates the conditions; `Configuration(...)` canonicalizes again,
so the value is the canonical form of all conditions of the tuple).
Raises (`Empty configurations not allowed`) when the union is empty. -/
def flattenTuple (t : List Config) : Except Unit Config :=
  let c := mkConfig (t.flatMap id)
  if c.isEmpty then .error () else .ok c

/-- Sorted duplicate-free list of configurations, the model of a Python
`set` of configurations read off in sorted order. -/
def sortedConfigSet (l : List Config) : List Config :=
  l.dedup.insertionSort configLe

/-- Model of `Configuration.get_permutations_of_configurations`:
all permutations of the observed configurations, flattened, impossible
ones excluded. -/
def getPermutationsOfConfigurations (items : List Config) :
    Except Unit (List Config) :=
  match (selfProduct items.length items).mapM flattenTuple with
  | .error e => .error e
  | .ok flat => .ok (sortedConfigSet (flat.filter (fun c => !(isImpossible c))))

theorem getPermutationsOfConfigurations_possible
    {items out : List Config} {c : Config}
    (h : getPermutationsOfConfigurations items = .ok out) (hc : c ∈ out) :
    isImpossible c = false := by
  unfold getPermutationsOfConfigurations at h
  rcases h2 : (selfProduct items.length items).mapM flattenTuple with e | flat
  · rw [h2] at h; cases h
  · rw [h2] at h
    have hout : out = sortedConfigSet (flat.filter (fun c => !(isImpossible c))) :=
      (Except.ok.inj h).symm
    subst hout
    have hmem : c ∈ flat.filter (fun c => !(isImpossible c)) := by
      have h3 := hc
      unfold sortedConfigSet at h3
      rw [List.mem_insertionSort, List.mem_dedup] at h3
      exact h3
    have h4 := List.of_mem_filter hmem
    simpa using h4

/-- Python `itertools.combinations(l, 2)` in iteration order: all position
pairs `(i, j)` with `i < j`. -/
def pairsInOrder {α : Type} : List α → List (α × α)
  | [] => []
  | x :: xs => xs.map (fun y => (x, y)) ++ pairsInOrder xs

theorem pairsInOrder_mem {α : Type} :
    ∀ {l : List α} {p : α × α}, p ∈ pairsInOrder l → p.1 ∈ l ∧ p.2 ∈ l
  | [], _, h => absurd h (List.not_mem_nil _)
  | x :: xs, p, h => by
      rcases List.mem_append.mp h with h1 | h1
      · rcases List.mem_map.mp h1 with ⟨y, hy, he⟩
        subst he
        exact ⟨List.mem_cons_self _ _, List.mem_cons_of_mem _ hy⟩
      · have := pairsInOrder_mem h1
        exact ⟨List.mem_cons_of_mem _ this.1, List.mem_cons_of_mem _ this.2⟩

/-- Model of `Configuration.difference` with a one-element set
(`tag - {cond}`): remove the condition and re-intern. -/
def configDiff (c : Config) (x : Cond) : Config := mkConfig (c.erase x)

/-- Inner loop of `ConfigurationGroups.simplify_tags` for one pair
`(tag1, tag2)`: walk `tag1`'s conditions looking for one whose inverse
lies in `tag2`; building an empty `Configuration` raises (`.error`),
and the pair combines only when the two copies agree. -/
def innerScan (tag1 tag2 : Config) : List Cond → Option (Except Unit Config)
  | [] => none
  | c :: rest =>
    if inverted c ∈ tag2 then
      let d1 := configDiff tag1 (inverted c)
      let d2 := configDiff tag2 (inverted c)
      if d1.isEmpty then some (.error ())
      else if d2.isEmpty then some (.error ())
      else if d1 = d2 then some (.ok d1)
      else innerScan tag1 tag2 rest
    else innerScan tag1 tag2 rest

/-- Outer loop of `simplify_tags`: find the first pair of the
`combinations(self, 2)` scan that fires, returning the rewritten group
(duplicate dropped, or pair replaced by its combination), an error, or
`none` when no pair fires. -/
def groupScan (l : Group) : List (Config × Config) → Option (Except Unit Group)
  | [] => none
  | (t1, t2) :: rest =>
    if t1 = t2 then some (.ok (mkGroup (l.erase t1)))
    else
      match innerScan t1 t2 t1 with
      | some (.error e) => some (.error e)
      | some (.ok d) => some (.ok (mkGroup (((l.erase t1).erase t2) ++ [d])))
      | none => groupScan l rest

theorem groupScan_ok_length :
    ∀ {ps : List (Config × Config)} {l : Group} {g2 : Group},
      (∀ p ∈ ps, p.1 ∈ l ∧ p.2 ∈ l) →
      groupScan l ps = some (.ok g2) → g2.length < l.length
  | [], _, _, _, h => by cases h
  | (t1, t2) :: rest, l, g2, hmem, h => by
      have hm := hmem (t1, t2) (List.mem_cons_self _ _)
      unfold groupScan at h
      by_cases he : t1 = t2
      · rw [if_pos he] at h
        have hg := Except.ok.inj (Option.some.inj h)
        subst hg
        rw [mkGroup_length, List.length_erase_of_mem hm.1]
        have : 0 < l.length := List.length_pos.mpr (List.ne_nil_of_mem hm.1)
        omega
      · rw [if_neg he] at h
        rcases hscan : innerScan t1 t2 t1 with _ | r
        · rw [hscan] at h
          exact groupScan_ok_length (fun p hp => hmem p (List.mem_cons_of_mem _ hp)) h
        · rcases r with e | d
          · rw [hscan] at h
            simp at h
          · rw [hscan] at h
            simp only [Option.some.injEq, Except.ok.injEq] at h
            subst h
            have ht2 : t2 ∈ l.erase t1 :=
              (List.mem_erase_of_ne (fun hh => he hh.symm)).mpr hm.2
            have h1 : (l.erase t1).length = l.length - 1 :=
              List.length_erase_of_mem hm.1
            have h2 : ((l.erase t1).erase t2).length = (l.erase t1).length - 1 :=
              List.length_erase_of_mem ht2
            have h3 : 0 < (l.erase t1).length :=
              List.length_pos.mpr (List.ne_nil_of_mem ht2)
            rw [mkGroup_length, List.length_append]
            simp only [List.length_singleton]
            omega

/-- Model of `ConfigurationGroups.simplify_tags`: repeat the pair scan until no
rule fires (the `_simplified` flag of the source is pure memoisation of
the scan finding nothing and needs no modelling). -/
def simplifyTags (g : Group) : Except Unit Group :=
  match hs : groupScan g (pairsInOrder g) with
  | none => .ok g
  | some (.error e) => .error e
  | some (.ok g2) => simplifyTags g2
termination_by g.length
decreasing_by
  exact groupScan_ok_length (fun p hp => pairsInOrder_mem hp) hs

theorem simplifyTags_eq (g : Group) :
    simplifyTags g =
      match groupScan g (pairsInOrder g) with
      | none => .ok g
      | some (.error e) => .error e
      | some (.ok g2) => simplifyTags g2 := by
  rw [simplifyTags]
  split <;> rename_i hs2 <;> rw [hs2]

theorem simplifyTags_ok_fixpoint_aux :
    ∀ (n : Nat) (g g2 : Group), g.length ≤ n →
      simplifyTags g = .ok g2 → simplifyTags g2 = .ok g2
  | n, g, g2, hle, h => by
      rw [simplifyTags_eq] at h
      rcases hs : groupScan g (pairsInOrder g) with _ | r
      · rw [hs] at h
        have : g = g2 := Except.ok.inj h
        subst this
        rw [simplifyTags_eq, hs]
      · rcases r with e | g3
        · rw [hs] at h; cases h
        · rw [hs] at h
          have hlt : g3.length < g.length :=
            groupScan_ok_length (fun p hp => pairsInOrder_mem hp) hs
          match n with
          | 0 => omega
          | n + 1 =>
            exact simplifyTags_ok_fixpoint_aux n g3 g2 (by omega) h

theorem simplifyTags_of_scan_none {g : Group}
    (h : groupScan g (pairsInOrder g) = none) : simplifyTags g = .ok g := by
  rw [simplifyTags_eq, h]

theorem simplifyTags_of_scan_ok {g g2 : Group}
    (h : groupScan g (pairsInOrder g) = some (.ok g2)) :
    simplifyTags g = simplifyTags g2 := by
  rw [simplifyTags_eq, h]

theorem simplifyTags_of_scan_error {g : Group} {e : Unit}
    (h : groupScan g (pairsInOrder g) = some (.error e)) :
    simplifyTags g = .error e := by
  rw [simplifyTags_eq, h]

/-- C7: `simplify_tags` is idempotent: whenever it returns a group,
running it again on that group returns the same group unchanged. -/
theorem simplify_tags_idempotent (g g2 : Group) (h : simplifyTags g = .ok g2) :
    simplifyTags g2 = .ok g2 :=
  simplifyTags_ok_fixpoint_aux g.length g g2 le_rfl h

theorem simplify_tags_idempotent_witness :
    simplifyTags [[("a", true)], [("a", true)]] = .ok [[("a", true)]] ∧
    simplifyTags [[("a", true)]] = .ok [[("a", true)]] := by
  have h1 : simplifyTags [[("a", true)], [("a", true)]] = .ok [[("a", true)]] := by
    rw [@simplifyTags_of_scan_ok [[("a", true)], [("a", true)]] [[("a", true)]] (by decide)]
    exact simplifyTags_of_scan_none (by decide)
  exact ⟨h1, simplify_tags_idempotent _ _ h1⟩

/-- C2: the pair of the `simplify_tags` docstring,
`{hello ∧ world, hello ∧ ¬world}` — two configurations differing in
exactly one condition's truth value.  The docstring (and the claim)
promise the combined remainder `{hello}`, but the code subtracts
`inverted_condition` from *both* copies, so `tag1_copy` keeps its own
condition and never equals `tag2_copy`: the group is returned
unchanged. -/
theorem simplify_tags_docstring_pair_unchanged :
    simplifyTags (mkGroup [[("defined(hello)", true), ("defined(world)", true)],
                           [("defined(hello)", true), ("defined(world)", false)]]) =
      .ok [[("defined(hello)", true), ("defined(world)", false)],
           [("defined(hello)", true), ("defined(world)", true)]] := by
  have hm : mkGroup [[("defined(hello)", true), ("defined(world)", true)],
                     [("defined(hello)", true), ("defined(world)", false)]] =
      [[("defined(hello)", true), ("defined(world)", false)],
       [("defined(hello)", true), ("defined(world)", true)]] := by decide
  rw [hm]
  exact simplifyTags_of_scan_none (by decide)

/-- Python `str.isspace` for the ASCII whitespace appearing in source
files (space, tab, carriage return, newline). -/
def pyIsSpace (c : Char) : Bool := c.isWhitespace

/-- Python `str.lstrip()` on a character list. -/
def pyLstripList (l : List Char) : List Char := l.dropWhile pyIsSpace

/-- Python `str.rstrip()` on a character list. -/
def pyRstripList (l : List Char) : List Char :=
  (l.reverse.dropWhile pyIsSpace).reverse

/-- Python `str.strip()`. -/
def pyStrip (s : String) : String := ⟨pyRstripList (pyLstripList s.toList)⟩

/-- Python `str.lstrip()`. -/
def pyLstrip (s : String) : String := ⟨pyLstripList s.toList⟩

/-- Python `str.rstrip()`. -/
def pyRstrip (s : String) : String := ⟨pyRstripList s.toList⟩

/-- Python `s.endswith(c)` for a single character. -/
def endsWithChar (s : String) (c : Char) : Bool :=
  match s.toList.getLast? with
  | some d => d = c
  | none => false

/-- Regex fragment `.+$` on the characters after a directive keyword: at
least one character, none of them a newline (a trailing newline may
remain unconsumed thanks to `$`). -/
def dotPlusDollar (u : List Char) : Bool :=
  match u.getLast? with
  | some d =>
      if d = '\n' then !u.dropLast.isEmpty && !u.dropLast.contains '\n'
      else !u.contains '\n'
  | none => false

/-- Regex fragment `\s+.+$`: a non-empty whitespace run followed by a
`.+$` match (all split points are tried, as the regex engine backtracks). -/
def wsThenRest (t : List Char) : Bool :=
  (List.range t.length).any (fun i =>
    decide (1 ≤ i) && (t.take i).all pyIsSpace && dotPlusDollar (t.drop i))

/-- Alternative `ifdef\s+.+` of `Condition.condition_re`. -/
def altIfdef (r : List Char) : Bool :=
  match r with
  | 'i' :: 'f' :: 'd' :: 'e' :: 'f' :: t => wsThenRest t
  | _ => false

/-- Alternative `if\s+.+` of `Condition.condition_re`. -/
def altIf (r : List Char) : Bool :=
  match r with
  | 'i' :: 'f' :: t => wsThenRest t
  | _ => false

/-- Alternative `else\s*` of `Condition.condition_re`. -/
def altElse (r : List Char) : Bool :=
  match r with
  | 'e' :: 'l' :: 's' :: 'e' :: t => t.all pyIsSpace
  | _ => false

/-- Alternative `endif\s*` of `Condition.condition_re`. -/
def altEndif (r : List Char) : Bool :=
  match r with
  | 'e' :: 'n' :: 'd' :: 'i' :: 'f' :: t => t.all pyIsSpace
  | _ => false

/-- Model of `Condition.match_condition`: strip the line, refuse lines
ending with a colon, then match `^#(ifdef\s+.+|if\s+.+|else\s*|endif\s*)$`,
returning the text captured by group 1 (everything after the `#`). -/
def matchCondition (line : String) : Option String :=
  let s := pyStrip line
  if endsWithChar s ':' then none
  else
    match s.toList with
    | '#' :: rest =>
        if altIfdef rest || altIf rest || altElse rest || altEndif rest then
          some ⟨rest⟩
        else none
    | _ => none

/-- Python `str.split(' ', 1)`: the part before the first space, and
the remainder after it when a space exists. -/
def splitFirstSpace : List Char → List Char × Option (List Char)
  | [] => ([], none)
  | c :: rest =>
      if c = ' ' then ([], some rest)
      else
        let (a, b) := splitFirstSpace rest
        (c :: a, b)

/-- State of the `Configuration.get_configurations` scan: the set of
observed configurations (in first-insertion order) and the directive
stack (top first). -/
structure ScanState where
  observed : List Config
  stack : List Cond
deriving DecidableEq

/-- Loop body of `Configuration.get_configurations` for one line.
Structural errors (`SyntaxError`, failed `assert`) abort the run. -/
def scanLine (st : ScanState) (line : String) : Except Unit ScanState :=
  match matchCondition line with
  | none =>
      .ok { st with observed :=
        if st.stack.isEmpty then st.observed
        else insertSet (mkConfig st.stack) st.observed }
  | some g1 =>
      let (d, rest) := splitFirstSpace (pyStrip g1).toList
      let directive := pyStrip ⟨d⟩
      match rest with
      | none =>
          if directive = "else" then
            match st.stack with
            | [] => .error ()
            | (name, v) :: stack2 =>
                if v = true then .ok { st with stack := (name, false) :: stack2 }
                else .error ()
          else if directive = "endif" then
            match st.stack with
            | [] => .error ()
            | _ :: stack2 => .ok { st with stack := stack2 }
          else .error ()
      | some r =>
          let parameter := pyStrip ⟨r⟩
          if directive = "if" then
            .ok { st with stack := (parameter, true) :: st.stack }
          else if directive = "ifdef" then
            .ok { st with stack := ("defined(" ++ parameter ++ ")", true) :: st.stack }
          else .error ()

/-- Model of `Configuration.get_configurations`: scan the file's lines
and return the set of observed configurations. -/
def getConfigurations (lines : List String) : Except Unit (List Config) :=
  match lines.foldlM scanLine ⟨[], []⟩ with
  | .error e => .error e
  | .ok st => .ok st.observed

/-- Union of `all_directives` over the configurations
(`all_cond_names` in `get_complete_configurations`). -/
def allCondNames (configs : List Config) : List String :=
  (configs.flatMap (fun c => c.map (·.1))).dedup

/-- Completion of one configuration: add `(name, False)` for every
condition name of the file the configuration does not mention, then
re-intern (`cls(sorted(configuration))`). -/
def completeConfig (names : List String) (c : Config) : Config :=
  mkConfig (c ++ (names.filter (fun n => !(c.map (·.1)).contains n)).map (fun n => (n, false)))

/-- Model of `Configuration.get_complete_configurations`: observed
configurations, their permutations, then completion and deduplication,
sorted. -/
def getCompleteConfigurations (lines : List String) : Except Unit (List Config) :=
  match getConfigurations lines with
  | .error e => .error e
  | .ok s =>
      match getPermutationsOfConfigurations s with
      | .error e => .error e
      | .ok p =>
          let names := allCondNames p
          .ok (sortedConfigSet (p.map (completeConfig names)))

theorem mem_sortedConfigSet {c : Config} {l : List Config} :
    c ∈ sortedConfigSet l ↔ c ∈ l := by
  unfold sortedConfigSet
  rw [List.mem_insertionSort, List.mem_dedup]

theorem completeConfig_possible (names : List String) (c : Config)
    (h : isImpossible c = false) :
    isImpossible (completeConfig names c) = false := by
  cases hb : isImpossible (completeConfig names c)
  · rfl
  · exfalso
    rcases (isImpossible_iff _).mp hb with ⟨n, hT, hF⟩
    have hT2 := mem_mkConfig.mp hT
    have hF2 := mem_mkConfig.mp hF
    have hTc : (n, true) ∈ c := by
      rcases List.mem_append.mp hT2 with h1 | h1
      · exact h1
      · rcases List.mem_map.mp h1 with ⟨m, -, he⟩
        cases he
    rcases List.mem_append.mp hF2 with h1 | h1
    · have : isImpossible c = true := (isImpossible_iff c).mpr ⟨n, hTc, h1⟩
      rw [this] at h
      cases h
    · rcases List.mem_map.mp h1 with ⟨m, hm, he⟩
      have hmn : m = n := congrArg Prod.fst he
      subst hmn
      have hprop := List.of_mem_filter hm
      have hin : m ∈ c.map (fun p => p.1) := List.mem_map_of_mem _ hTc
      have hcont : (c.map (fun p => p.1)).contains m = true :=
        List.elem_eq_true_of_mem hin
      rw [hcont] at hprop
      exact absurd hprop (by decide)

theorem getCompleteConfigurations_possible
    {lines : List String} {out : List Config} {c : Config}
    (h : getCompleteConfigurations lines = .ok out) (hc : c ∈ out) :
    isImpossible c = false := by
  unfold getCompleteConfigurations at h
  rcases h1 : getConfigurations lines with e | s
  · rw [h1] at h; cases h
  · rw [h1] at h
    dsimp only [] at h
    rcases h2 : getPermutationsOfConfigurations s with e | p
    · rw [h2] at h; cases h
    · rw [h2] at h
      dsimp only [] at h
      have hout : out = sortedConfigSet (p.map (completeConfig (allCondNames p))) :=
        (Except.ok.inj h).symm
      subst hout
      rcases List.mem_map.mp (mem_sortedConfigSet.mp hc) with ⟨c0, hc0, he⟩
      subst he
      exact completeConfig_possible _ c0
        (getPermutationsOfConfigurations_possible h2 hc0)

/-- C5: `is_impossible` is true exactly when some condition name occurs
in the configuration with both truth values; every configuration in the
output of `get_permutations_of_configurations` is possible; and every
complete configuration returned by `get_complete_configurations` is
possible (completion only adds `(name, False)` for names the
configuration does not mention, so it cannot create a contradiction). -/
theorem is_impossible_iff_and_enumerator_possible :
    (∀ c : Config, isImpossible c = true ↔ ∃ n, (n, true) ∈ c ∧ (n, false) ∈ c) ∧
    (∀ (items out : List Config) (c : Config),
      getPermutationsOfConfigurations items = .ok out → c ∈ out →
      isImpossible c = false) ∧
    (∀ (lines : List String) (out : List Config) (c : Config),
      getCompleteConfigurations lines = .ok out → c ∈ out →
      isImpossible c = false) :=
  ⟨isImpossible_iff,
   fun _ _ _ h hc => getPermutationsOfConfigurations_possible h hc,
   fun _ _ _ h hc => getCompleteConfigurations_possible h hc⟩

theorem is_impossible_iff_and_enumerator_possible_witness :
    isImpossible [("x", false), ("x", true)] = true ∧
    isImpossible [("defined(X)", true)] = false ∧
    isImpossible [("defined(X)", false)] = false :=
  ⟨(is_impossible_iff_and_enumerator_possible.1 [("x", false), ("x", true)]).mpr
      ⟨"x", by decide, by decide⟩,
   is_impossible_iff_and_enumerator_possible.2.1 [[("defined(X)", true)]]
      [[("defined(X)", true)]] [("defined(X)", true)] (by decide) (by decide),
   is_impossible_iff_and_enumerator_possible.2.2
      ["#if defined(X)\n", "a\n", "#else\n", "b\n", "#endif\n"]
      [[("defined(X)", false)], [("defined(X)", true)]]
      [("defined(X)", false)] (by decide) (by decide)⟩

theorem condLe_refl (a : Cond) : condLe a a := Or.inr ⟨rfl, Or.inl rfl⟩

theorem condLt_FT (n : String) : condLt (n, false) (n, true) :=
  Or.inr ⟨rfl, rfl, rfl⟩

theorem not_condLe_TF (n : String) : ¬ condLe (n, true) (n, false) := by
  rintro (h | ⟨-, h | ⟨h1, -⟩⟩)
  · exact strLt_irrefl _ h
  · cases h
  · cases h1

theorem configLe_F_T (n : String) :
    configLe [(n, false)] [(n, true)] := Or.inl (condLt_FT n)

theorem not_configLe_T_F (n : String) :
    ¬ configLe [(n, true)] [(n, false)] := by
  rintro (h | ⟨h1, -⟩)
  · rcases h with h | ⟨-, ⟨h, -⟩⟩
    · exact strLt_irrefl _ h
    · cases h
  · cases h1

theorem mkConfig_single (x : Cond) : mkConfig [x] = [x] := rfl

theorem mkConfig_pair_same (x : Cond) : mkConfig [x, x] = [x] := by
  unfold mkConfig
  rw [List.dedup_cons_of_mem (List.mem_cons_self x [])]
  rfl

theorem condLe_FT (n : String) : condLe (n, false) (n, true) :=
  Or.inr ⟨rfl, Or.inr ⟨rfl, rfl⟩⟩

theorem mkConfig_TF (n : String) :
    mkConfig [(n, true), (n, false)] = [(n, false), (n, true)] := by
  unfold mkConfig
  rw [List.dedup_cons_of_not_mem (by simp)]
  show List.orderedInsert condLe (n, true) (List.insertionSort condLe [(n, false)].dedup) = _
  rw [show List.insertionSort condLe [((n, false) : Cond)].dedup = [(n, false)] from rfl]
  unfold List.orderedInsert
  rw [if_neg (not_condLe_TF n)]
  rfl

theorem mkConfig_FT (n : String) :
    mkConfig [(n, false), (n, true)] = [(n, false), (n, true)] := by
  unfold mkConfig
  rw [List.dedup_cons_of_not_mem (by simp)]
  show List.orderedInsert condLe (n, false) (List.insertionSort condLe [(n, true)].dedup) = _
  rw [show List.insertionSort condLe [((n, true) : Cond)].dedup = [(n, true)] from rfl]
  unfold List.orderedInsert
  rw [if_pos (condLe_FT n)]

theorem isImpossible_single (x : Cond) : isImpossible [x] = false := by
  rcases x with ⟨n, v⟩; rfl

theorem isImpossible_FT (n : String) :
    isImpossible [(n, false), (n, true)] = true := by
  simp [isImpossible, isImpossibleAux, lookupName, insertName]

theorem sortedConfigSet_TF (n : String) :
    sortedConfigSet [[(n, true)], [(n, false)]] = [[(n, false)], [(n, true)]] := by
  unfold sortedConfigSet
  rw [List.dedup_cons_of_not_mem (by simp)]
  show List.orderedInsert configLe [(n, true)]
      (List.insertionSort configLe [[((n, false) : Cond)]].dedup) = _
  rw [show List.insertionSort configLe [[((n, false) : Cond)]].dedup = [[(n, false)]] from rfl]
  unfold List.orderedInsert
  rw [if_neg (not_configLe_T_F n)]
  rfl

theorem sortedConfigSet_FT (n : String) :
    sortedConfigSet [[(n, false)], [(n, true)]] = [[(n, false)], [(n, true)]] := by
  unfold sortedConfigSet
  rw [List.dedup_cons_of_not_mem (by simp)]
  show List.orderedInsert configLe [(n, false)]
      (List.insertionSort configLe [[((n, true) : Cond)]].dedup) = _
  rw [show List.insertionSort configLe [[((n, true) : Cond)]].dedup = [[(n, true)]] from rfl]
  unfold List.orderedInsert
  rw [if_pos (configLe_F_T n)]

theorem perms_of_both_branches_TF (n : String) :
    getPermutationsOfConfigurations [[(n, true)], [(n, false)]] =
      .ok [[(n, false)], [(n, true)]] := by
  unfold getPermutationsOfConfigurations
  rw [show (selfProduct ([[((n : String), true)], [(n, false)]] : List Config).length
        [[(n, true)], [(n, false)]]) =
      [[[(n, true)], [(n, true)]], [[(n, true)], [(n, false)]],
       [[(n, false)], [(n, true)]], [[(n, false)], [(n, false)]]] from rfl]
  have hf1 : flattenTuple [[(n, true)], [(n, true)]] = .ok [(n, true)] := by
    unfold flattenTuple
    rw [show ([[((n : String), true)], [(n, true)]] : List Config).flatMap id =
        [(n, true), (n, true)] from rfl, mkConfig_pair_same]
    rfl
  have hf2 : flattenTuple [[(n, true)], [(n, false)]] = .ok [(n, false), (n, true)] := by
    unfold flattenTuple
    rw [show ([[((n : String), true)], [(n, false)]] : List Config).flatMap id =
        [(n, true), (n, false)] from rfl, mkConfig_TF]
    rfl
  have hf3 : flattenTuple [[(n, false)], [(n, true)]] = .ok [(n, false), (n, true)] := by
    unfold flattenTuple
    rw [show ([[((n : String), false)], [(n, true)]] : List Config).flatMap id =
        [(n, false), (n, true)] from rfl, mkConfig_FT]
    rfl
  have hf4 : flattenTuple [[(n, false)], [(n, false)]] = .ok [(n, false)] := by
    unfold flattenTuple
    rw [show ([[((n : String), false)], [(n, false)]] : List Config).flatMap id =
        [(n, false), (n, false)] from rfl, mkConfig_pair_same]
    rfl
  rw [show ([[[(n, true)], [(n, true)]], [[(n, true)], [(n, false)]],
       [[(n, false)], [(n, true)]], [[(n, false)], [(n, false)]]] :
        List (List Config)).mapM flattenTuple =
      (flattenTuple [[(n, true)], [(n, true)]]).bind (fun a =>
        (flattenTuple [[(n, true)], [(n, false)]]).bind (fun b =>
          (flattenTuple [[(n, false)], [(n, true)]]).bind (fun c =>
            (flattenTuple [[(n, false)], [(n, false)]]).bind (fun d =>
              pure [a, b, c, d])))) from rfl]
  rw [hf1, hf2, hf3, hf4]
  show Except.ok (sortedConfigSet (List.filter _
    [[(n, true)], [(n, false), (n, true)], [(n, false), (n, true)], [(n, false)]])) = _
  rw [show List.filter (fun c => !(isImpossible c))
      [[(n, true)], [(n, false), (n, true)], [(n, false), (n, true)], [(n, false)]] =
      [[(n, true)], [(n, false)]] by
    simp [List.filter, isImpossible_single, isImpossible_FT]]
  rw [sortedConfigSet_TF]

theorem perms_of_both_branches_FT (n : String) :
    getPermutationsOfConfigurations [[(n, false)], [(n, true)]] =
      .ok [[(n, false)], [(n, true)]] := by
  unfold getPermutationsOfConfigurations
  rw [show (selfProduct ([[((n : String), false)], [(n, true)]] : List Config).length
        [[(n, false)], [(n, true)]]) =
      [[[(n, false)], [(n, false)]], [[(n, false)], [(n, true)]],
       [[(n, true)], [(n, false)]], [[(n, true)], [(n, true)]]] from rfl]
  have hf1 : flattenTuple [[(n, false)], [(n, false)]] = .ok [(n, false)] := by
    unfold flattenTuple
    rw [show ([[((n : String), false)], [(n, false)]] : List Config).flatMap id =
        [(n, false), (n, false)] from rfl, mkConfig_pair_same]
    rfl
  have hf2 : flattenTuple [[(n, false)], [(n, true)]] = .ok [(n, false), (n, true)] := by
    unfold flattenTuple
    rw [show ([[((n : String), false)], [(n, true)]] : List Config).flatMap id =
        [(n, false), (n, true)] from rfl, mkConfig_FT]
    rfl
  have hf3 : flattenTuple [[(n, true)], [(n, false)]] = .ok [(n, false), (n, true)] := by
    unfold flattenTuple
    rw [show ([[((n : String), true)], [(n, false)]] : List Config).flatMap id =
        [(n, true), (n, false)] from rfl, mkConfig_TF]
    rfl
  have hf4 : flattenTuple [[(n, true)], [(n, true)]] = .ok [(n, true)] := by
    unfold flattenTuple
    rw [show ([[((n : String), true)], [(n, true)]] : List Config).flatMap id =
        [(n, true), (n, true)] from rfl, mkConfig_pair_same]
    rfl
  rw [show ([[[(n, false)], [(n, false)]], [[(n, false)], [(n, true)]],
       [[(n, true)], [(n, false)]], [[(n, true)], [(n, true)]]] :
        List (List Config)).mapM flattenTuple =
      (flattenTuple [[(n, false)], [(n, false)]]).bind (fun a =>
        (flattenTuple [[(n, false)], [(n, true)]]).bind (fun b =>
          (flattenTuple [[(n, true)], [(n, false)]]).bind (fun c =>
            (flattenTuple [[(n, true)], [(n, true)]]).bind (fun d =>
              pure [a, b, c, d])))) from rfl]
  rw [hf1, hf2, hf3, hf4]
  show Except.ok (sortedConfigSet (List.filter _
    [[(n, false)], [(n, false), (n, true)], [(n, false), (n, true)], [(n, true)]])) = _
  rw [show List.filter (fun c => !(isImpossible c))
      [[(n, false)], [(n, false), (n, true)], [(n, false), (n, true)], [(n, true)]] =
      [[(n, false)], [(n, true)]] by
    simp [List.filter, isImpossible_single, isImpossible_FT]]
  rw [sortedConfigSet_FT]

theorem allCondNames_FT (n : String) :
    allCondNames [[(n, false)], [(n, true)]] = [n] := by
  unfold allCondNames
  rw [show ([[((n : String), false)], [(n, true)]] : List Config).flatMap
      (fun c => c.map (·.1)) = [n, n] from rfl]
  rw [List.dedup_cons_of_mem (List.mem_cons_self n [])]
  rfl

theorem completeConfig_single_name (n : String) (b : Bool) :
    completeConfig [n] [(n, b)] = [(n, b)] := by
  unfold completeConfig
  rw [show List.filter (fun m => !(([((n : String), b)] : Config).map (·.1)).contains m) [n] =
      [] by simp [List.filter]]
  rfl

/-- C1 (amended): for an input file whose conditional directives mention
exactly one condition name and whose scan observes both branches (the
observed configurations are exactly `{X=true}` and `{X=false}`, e.g.
because the file has an `#else` with content under it),
`get_complete_configurations` returns exactly the two complete
configurations `{X=false}` and `{X=true}`.  Without an observed
`#else` branch the enumerator returns only `{X=true}` (see the
counterexample). -/
theorem get_complete_configurations_single_condition_both_branches
    (lines : List String) (n : String)
    (h : getConfigurations lines = .ok [[(n, true)], [(n, false)]] ∨
         getConfigurations lines = .ok [[(n, false)], [(n, true)]]) :
    getCompleteConfigurations lines = .ok [[(n, false)], [(n, true)]] := by
  unfold getCompleteConfigurations
  rcases h with h | h <;> rw [h]
  · change (match getPermutationsOfConfigurations [[(n, true)], [(n, false)]] with
        | Except.error e => (Except.error e : Except Unit (List Config))
        | Except.ok p =>
            Except.ok (sortedConfigSet (List.map (completeConfig (allCondNames p)) p))) = _
    rw [perms_of_both_branches_TF]
    change Except.ok (sortedConfigSet (List.map
        (completeConfig (allCondNames [[(n, false)], [(n, true)]]))
        [[(n, false)], [(n, true)]])) = _
    rw [allCondNames_FT, List.map_cons, List.map_cons, List.map_nil,
        completeConfig_single_name n false, completeConfig_single_name n true,
        sortedConfigSet_FT]
  · change (match getPermutationsOfConfigurations [[(n, false)], [(n, true)]] with
        | Except.error e => (Except.error e : Except Unit (List Config))
        | Except.ok p =>
            Except.ok (sortedConfigSet (List.map (completeConfig (allCondNames p)) p))) = _
    rw [perms_of_both_branches_FT]
    change Except.ok (sortedConfigSet (List.map
        (completeConfig (allCondNames [[(n, false)], [(n, true)]]))
        [[(n, false)], [(n, true)]])) = _
    rw [allCondNames_FT, List.map_cons, List.map_cons, List.map_nil,
        completeConfig_single_name n false, completeConfig_single_name n true,
        sortedConfigSet_FT]

theorem get_complete_configurations_single_condition_witness :
    getConfigurations ["#if defined(X)\n", "a\n", "#else\n", "b\n", "#endif\n"] =
      .ok [[("defined(X)", true)], [("defined(X)", false)]] ∧
    getCompleteConfigurations ["#if defined(X)\n", "a\n", "#else\n", "b\n", "#endif\n"] =
      .ok [[("defined(X)", false)], [("defined(X)", true)]] :=
  ⟨by decide,
   get_complete_configurations_single_condition_both_branches
     ["#if defined(X)\n", "a\n", "#else\n", "b\n", "#endif\n"] "defined(X)"
     (Or.inl (by decide))⟩

/-- C1 counterexample: a file whose only condition name is
`defined(X)` but which has no `#else` branch.  The enumerator observes
only `{X=true}`, and `get_complete_configurations` returns exactly one
configuration, not the two the claim promises. -/
theorem get_complete_configurations_no_else_counterexample :
    getCompleteConfigurations ["#if defined(X)\n", "foo\n", "#endif\n"] =
      .ok [[("defined(X)", true)]] ∧
    getCompleteConfigurations ["#if defined(X)\n", "foo\n", "#endif\n"] ≠
      .ok [[("defined(X)", false)], [("defined(X)", true)]] :=
  ⟨by decide, by decide⟩

/-- One entry of the `definitions` dict: the body lines and the optional
parameter name list (`params` key absent for parameter-less macros). -/
structure MacroDef where
  lines : List String
  params : Option (List String)
deriving DecidableEq

/-- Errors raised by `expand_definitions`: the two `SyntaxError`s of the
expansion loop, the wrong-argument-count `SyntaxError` of `repl`, and a
stand-in for Python's interpreter recursion limit on nested expansion. -/
inductive MacroError where
  | infiniteRecursion
  | tooManySubstitutions
  | wrongArgCount
  | recursionLimit
deriving DecidableEq

/-- Python `\w` (ASCII): letters, digits and underscore. -/
def isWordChar (c : Char) : Bool := c.isAlphanum || c = '_'

/-- Key order of `expand_definitions`:
`keys.sort(key=lambda x: (-len(x), x))` — length descending, then
lexicographically ascending. -/
def keyLe (a b : String) : Prop :=
  b.toList.length < a.toList.length ∨
    (a.toList.length = b.toList.length ∧ (a = b ∨ strLt a b))

instance : DecidableRel keyLe := fun a b =>
  inferInstanceAs (Decidable (b.toList.length < a.toList.length ∨
    (a.toList.length = b.toList.length ∧ (a = b ∨ strLt a b))))

/-- Alternation order of the macro regex `(%s)`: the defined names,
longest first, ties alphabetical. -/
def sortedKeys (defs : List (String × MacroDef)) : List String :=
  (defs.map (·.1)).insertionSort keyLe

/-- Strip an expected literal prefix, returning the remainder. -/
def stripLit : List Char → List Char → Option (List Char)
  | [], t => some t
  | k :: ks, c :: t => if c = k then stripLit ks t else none
  | _ :: _, [] => none

theorem stripLit_eq : ∀ {ks t r : List Char}, stripLit ks t = some r → t = ks ++ r
  | [], _, _, h => by cases h; rfl
  | k :: ks, c :: t, r, h => by
      unfold stripLit at h
      by_cases hc : c = k
      · rw [if_pos hc] at h
        rw [List.cons_append, ← hc, stripLit_eq h]
      · rw [if_neg hc] at h; cases h
  | _ :: _, [], _, h => by cases h

/-- Scan to the first `)`: the characters before it and those after. -/
def spanNotClose : List Char → Option (List Char × List Char)
  | [] => none
  | c :: rest =>
      if c = ')' then some ([], rest)
      else (spanNotClose rest).map (fun p => (c :: p.1, p.2))

theorem spanNotClose_eq : ∀ {l a b : List Char},
    spanNotClose l = some (a, b) → l = a ++ ')' :: b ∧ ¬ ')' ∈ a
  | [], _, _, h => by cases h
  | c :: rest, a, b, h => by
      unfold spanNotClose at h
      by_cases hc : c = ')'
      · rw [if_pos hc] at h
        injection h with h2
        injection h2 with ha hb
        subst ha; subst hb; subst hc
        exact ⟨rfl, List.not_mem_nil _⟩
      · rw [if_neg hc] at h
        rcases h2 : spanNotClose rest with _ | p
        · rw [h2] at h; cases h
        · rw [h2] at h
          injection h with h3
          rcases p with ⟨a2, b2⟩
          have := spanNotClose_eq h2
          injection h3 with ha hb
          subst hb
          rw [← ha]
          refine ⟨by rw [List.cons_append, this.1], ?_⟩
          intro hm
          rcases List.mem_cons.mp hm with he | hm2
          · exact hc he.symm
          · exact this.2 hm2

/-- Regex group 3, first alternative `\([^)]+\)`: an argument list up to
the first closing parenthesis, at least one character inside. -/
def parenG3 : List Char → Option (List Char × List Char)
  | [] => none
  | c :: rest =>
      if c = '(' then
        match spanNotClose rest with
        | some (inside, after) =>
            if inside.isEmpty then none
            else some ('(' :: inside ++ [')'], after)
        | none => none
      else none

/-- Regex group 3 of the macro regex, alternatives in pattern order:
`\([^)]+\)`, `$` (end of string, possibly before a final newline),
`##`, `[^w]` (sic: any character other than a literal `w`).  Returns
the consumed text and the remainder. -/
def tryG3 (t : List Char) : Option (List Char × List Char) :=
  match parenG3 t with
  | some r => some r
  | none =>
      if t = [] ∨ t = ['\n'] then some ([], t)
      else
        match stripLit ['#', '#'] t with
        | some rest => some (['#', '#'], rest)
        | none =>
            match t with
            | c :: rest => if c = 'w' then none else some ([c], rest)
            | [] => none

/-- Try the keys in alternation order at the current position; on a key
whose group 3 fails, the regex engine falls through to the next key. -/
def tryKeysG3 (keys : List String) (t : List Char) :
    Option (String × List Char × List Char) :=
  match keys with
  | [] => none
  | k :: ks =>
      match stripLit k.toList t with
      | some afterKey =>
          match tryG3 afterKey with
          | some (g3, rest) => some (k, g3, rest)
          | none => tryKeysG3 ks t
      | none => tryKeysG3 ks t

/-- A successful match of the macro invocation regex
`(^|##|[^\w])(keys)(\([^)]+\)|$|##|[^w])`: the text before the match,
the three groups, and the text after. -/
structure MacroMatch where
  pre : List Char
  g1 : List Char
  key : String
  g3 : List Char
  post : List Char
deriving DecidableEq

/-- Try the three group-1 alternatives (in pattern order `^`, `##`,
`[^\w]`) at one position. -/
def tryAt (keys : List String) (atStart : Bool) (t : List Char) :
    Option (List Char × String × List Char × List Char) :=
  match (if atStart then
      match tryKeysG3 keys t with
      | some (k, g3, rest) => some (([] : List Char), k, g3, rest)
      | none => none
    else none) with
  | some r => some r
  | none =>
      match (match stripLit ['#', '#'] t with
        | some t2 =>
            match tryKeysG3 keys t2 with
            | some (k, g3, rest) => some (['#', '#'], k, g3, rest)
            | none => none
        | none => none) with
      | some r => some r
      | none =>
          match t with
          | c :: t2 =>
              if isWordChar c then none
              else
                match tryKeysG3 keys t2 with
                | some (k, g3, rest) => some ([c], k, g3, rest)
                | none => none
          | [] => none

/-- Leftmost-match scan of the macro regex. -/
def findFrom (keys : List String) : Bool → List Char → List Char → Option MacroMatch
  | atStart, pre, [] =>
      match tryAt keys atStart [] with
      | some (g1, k, g3, rest) => some ⟨pre.reverse, g1, k, g3, rest⟩
      | none => none
  | atStart, pre, c :: rest =>
      match tryAt keys atStart (c :: rest) with
      | some (g1, k, g3, rest2) => some ⟨pre.reverse, g1, k, g3, rest2⟩
      | none => findFrom keys false (c :: pre) rest

/-- Model of `re_macro.subn(repl, code, count=1)`'s search part. -/
def findMacroMatch (keys : List String) (code : List Char) : Option MacroMatch :=
  findFrom keys true [] code

/-- Python `'\n'.join(lines)`. -/
def joinNl (lines : List String) : String := String.intercalate "\n" lines

/-- Split on commas (`str.split(',')`). -/
def splitOnComma : List Char → List (List Char)
  | [] => [[]]
  | c :: rest =>
      if c = ',' then [] :: splitOnComma rest
      else
        match splitOnComma rest with
        | a :: parts => (c :: a) :: parts
        | [] => [[c]]

/-- Model of `parse_parameter_values`: strip the parentheses, split on
commas, strip each value. -/
def parseParamValues (g3 : List Char) : List String :=
  (splitOnComma (g3.drop 1).dropLast).map (fun v => pyStrip ⟨v⟩)

/-- Association lookup in the `definitions` dict. -/
def lookupDef (k : String) : List (String × MacroDef) → Option MacroDef
  | [] => none
  | (k2, d) :: rest => if k2 = k then some d else lookupDef k rest

/-- Python dict assignment `defs[k] = d` on the association-list table:
replace the existing binding, else insert at the end, so a repeated key
keeps the last assignment. -/
def dictAssign (defs : List (String × MacroDef)) (k : String) (d : MacroDef) :
    List (String × MacroDef) :=
  if (defs.map (fun p => p.1)).contains k then
    defs.map (fun p => if p.1 = k then (k, d) else p)
  else defs ++ [(k, d)]

/-- Model of `repl` for one match, parameterized on the recursive
expansion used for argument substitution. -/
def applyRepl (expand : String → List (String × MacroDef) → Except MacroError String)
    (defs : List (String × MacroDef)) (m : MacroMatch) : Except MacroError String :=
  match lookupDef m.key defs with
  | none => .error .wrongArgCount
  | some d =>
      let core : Except MacroError String :=
        match d.params with
        | some (p :: ps) =>
            let argsOpt :=
              if m.g3.head? = some '(' ∧ m.g3.getLast? = some ')' then
                some (parseParamValues m.g3)
              else none
            match argsOpt with
            | some args =>
                if args ≠ [] ∧ args.length = (p :: ps).length then
                  expand (joinNl d.lines)
                    (((p :: ps).zip args).foldl
                      (fun acc pa => dictAssign acc pa.1 ⟨[pa.2], none⟩) [])
                else .error .wrongArgCount
            | none => .error .wrongArgCount
        | _ =>
            let r0 := joinNl d.lines
            .ok (if m.g3 = ['#', '#'] then r0 else r0 ++ ⟨m.g3⟩)
      core.map (fun r => if m.g1 = ['#', '#'] then r else ⟨m.g1⟩ ++ r)

/-- Model of one `re_macro.subn(repl, code, count=1)` call. -/
def subnOnce (expand : String → List (String × MacroDef) → Except MacroError String)
    (defs : List (String × MacroDef)) (code : String) :
    Except MacroError (String × Nat) :=
  match findMacroMatch (sortedKeys defs) code.toList with
  | none => .ok (code, 0)
  | some m =>
      (applyRepl expand defs m).map
        (fun r => (⟨m.pre⟩ ++ r ++ ⟨m.post⟩, 1))

/-- The `for _ in range(20000)` loop of `expand_definitions`. -/
def expandLoop (expand : String → List (String × MacroDef) → Except MacroError String)
    (defs : List (String × MacroDef)) : Nat → String → Except MacroError String
  | 0, _ => .error .tooManySubstitutions
  | k + 1, code =>
      match subnOnce expand defs code with
      | .error e => .error e
      | .ok (newcode, count) =>
          if code = newcode then
            if 0 < count then .error .infiniteRecursion else .ok newcode
          else expandLoop expand defs k newcode

/-- Fuelled model of `expand_definitions`; the fuel models the Python
interpreter's recursion limit on the nested expansion of parameterized
macro arguments. -/
def expandDefinitionsF : Nat → String → List (String × MacroDef) → Except MacroError String
  | 0, _, _ => .error .recursionLimit
  | fuel + 1, code, defs =>
      if defs.isEmpty then .ok code
      else expandLoop (fun c d => expandDefinitionsF fuel c d) defs 20000 code

/-- Model of `expand_definitions` (entry point; 1000 is CPython's
default recursion limit). -/
def expandDefinitions (code : String) (defs : List (String × MacroDef)) :
    Except MacroError String :=
  expandDefinitionsF 1000 code defs

theorem parenG3_spec : ∀ {t g3 rest : List Char},
    parenG3 t = some (g3, rest) → t = g3 ++ rest := by
  intro t g3 rest h
  rcases t with _ | ⟨c, r3⟩
  · exact Option.noConfusion h
  · have h2 : (if c = '(' then
        match spanNotClose r3 with
        | some (inside, after) =>
            if inside.isEmpty then none
            else some ('(' :: inside ++ [')'], after)
        | none => none
      else none) = some (g3, rest) := h
    by_cases hc : c = '('
    · rw [if_pos hc] at h2
      rcases hsc : spanNotClose r3 with _ | ⟨inside, after⟩
      · rw [hsc] at h2; exact Option.noConfusion h2
      · rw [hsc] at h2
        have h3 : (if inside.isEmpty then none
            else some ('(' :: inside ++ [')'], after)) = some (g3, rest) := h2
        by_cases he : inside.isEmpty
        · rw [if_pos he] at h3; exact Option.noConfusion h3
        · rw [if_neg he] at h3
          injection h3 with h4
          injection h4 with ha hb
          subst ha; subst hb; subst hc
          rw [(spanNotClose_eq hsc).1]
          simp
    · rw [if_neg hc] at h2; exact Option.noConfusion h2

theorem tryG3_eq {t g3 rest : List Char} (h : tryG3 t = some (g3, rest)) :
    t = g3 ++ rest := by
  unfold tryG3 at h
  rcases hp : parenG3 t with _ | p
  · rw [hp] at h
    by_cases hd : t = [] ∨ t = ['\n']
    · rw [if_pos hd] at h
      injection h with h2
      injection h2 with ha hb
      subst ha; subst hb; rfl
    · rw [if_neg hd] at h
      rcases hsl : stripLit ['#', '#'] t with _ | r2
      · rw [hsl] at h
        rcases t with _ | ⟨c, r3⟩
        · exact Option.noConfusion h
        · have h2 : (if c = 'w' then none else some ([c], r3)) = some (g3, rest) := h
          by_cases hw : c = 'w'
          · rw [if_pos hw] at h2; exact Option.noConfusion h2
          · rw [if_neg hw] at h2
            injection h2 with h3
            injection h3 with ha hb
            subst ha; subst hb; rfl
      · rw [hsl] at h
        have h2 : some ((['#', '#'] : List Char), r2) = some (g3, rest) := h
        injection h2 with h3
        injection h3 with ha hb
        subst ha; subst hb
        exact stripLit_eq hsl
  · rw [hp] at h
    have h2 : some p = some (g3, rest) := h
    injection h2 with h3
    subst h3
    exact parenG3_spec hp

theorem tryKeysG3_spec : ∀ {keys : List String} {t : List Char}
    {k : String} {g3 rest : List Char},
    tryKeysG3 keys t = some (k, g3, rest) →
    t = k.toList ++ g3 ++ rest ∧ k ∈ keys
  | [], _, _, _, _, h => by cases h
  | k0 :: ks, t, k, g3, rest, h => by
      unfold tryKeysG3 at h
      rcases hsl : stripLit k0.toList t with _ | afterKey
      · rw [hsl] at h
        have := tryKeysG3_spec h
        exact ⟨this.1, List.mem_cons_of_mem _ this.2⟩
      · rw [hsl] at h
        have h2 : (match tryG3 afterKey with
          | some (g3, rest) => some (k0, g3, rest)
          | none => tryKeysG3 ks t) = some (k, g3, rest) := h
        rcases hg3 : tryG3 afterKey with _ | ⟨g3x, restx⟩
        · rw [hg3] at h2
          have := tryKeysG3_spec h2
          exact ⟨this.1, List.mem_cons_of_mem _ this.2⟩
        · rw [hg3] at h2
          injection h2 with h3
          injection h3 with ha hb
          injection hb with hb1 hb2
          subst ha; subst hb1; subst hb2
          refine ⟨?_, List.mem_cons_self _ _⟩
          rw [stripLit_eq hsl, tryG3_eq hg3, List.append_assoc]

theorem tryAt_spec {keys : List String} {atStart : Bool} {t g1 : List Char}
    {k : String} {g3 rest : List Char}
    (h : tryAt keys atStart t = some (g1, k, g3, rest)) :
    t = g1 ++ k.toList ++ g3 ++ rest ∧ k ∈ keys := by
  unfold tryAt at h
  rcases h1 : (if atStart then
      match tryKeysG3 keys t with
      | some (k, g3, rest) => some (([] : List Char), k, g3, rest)
      | none => none
    else none) with _ | r1
  · rw [h1] at h
    rcases h2 : (match stripLit ['#', '#'] t with
      | some t2 =>
          match tryKeysG3 keys t2 with
          | some (k, g3, rest) => some ((['#', '#'] : List Char), k, g3, rest)
          | none => none
      | none => none) with _ | r2
    · rw [h2] at h
      rcases t with _ | ⟨c, t2⟩
      · exact Option.noConfusion h
      · have h3 : (if isWordChar c then none
            else match tryKeysG3 keys t2 with
              | some (k, g3, rest) => some ([c], k, g3, rest)
              | none => none) = some (g1, k, g3, rest) := h
        by_cases hw : isWordChar c
        · rw [if_pos hw] at h3; exact Option.noConfusion h3
        · rw [if_neg hw] at h3
          rcases h4 : tryKeysG3 keys t2 with _ | ⟨kx, g3x, restx⟩
          · rw [h4] at h3; exact Option.noConfusion h3
          · rw [h4] at h3
            injection h3 with h5
            injection h5 with ha hb
            injection hb with hb1 hb2
            injection hb2 with hc1 hc2
            subst ha; subst hb1; subst hc1; subst hc2
            have := tryKeysG3_spec h4
            refine ⟨?_, this.2⟩
            rw [this.1]
            simp
    · rw [h2] at h
      have h3 : some r2 = some (g1, k, g3, rest) := h
      injection h3 with h4
      subst h4
      rcases h4 : stripLit ['#', '#'] t with _ | t2
      · rw [h4] at h2; exact Option.noConfusion h2
      · rw [h4] at h2
        have h5 : (match tryKeysG3 keys t2 with
          | some (k, g3, rest) => some ((['#', '#'] : List Char), k, g3, rest)
          | none => none) = some (g1, k, g3, rest) := h2
        rcases h6 : tryKeysG3 keys t2 with _ | ⟨kx, g3x, restx⟩
        · rw [h6] at h5; exact Option.noConfusion h5
        · rw [h6] at h5
          injection h5 with h7
          injection h7 with ha hb
          injection hb with hb1 hb2
          injection hb2 with hc1 hc2
          subst ha; subst hb1; subst hc1; subst hc2
          have := tryKeysG3_spec h6
          refine ⟨?_, this.2⟩
          rw [stripLit_eq h4, this.1]
          simp
  · rw [h1] at h
    have h3 : some r1 = some (g1, k, g3, rest) := h
    injection h3 with h4
    subst h4
    by_cases ha : atStart
    · rw [if_pos ha] at h1
      rcases h5 : tryKeysG3 keys t with _ | ⟨kx, g3x, restx⟩
      · rw [h5] at h1; exact Option.noConfusion h1
      · rw [h5] at h1
        injection h1 with h6
        injection h6 with hb hc
        injection hc with hc1 hc2
        injection hc2 with hd1 hd2
        subst hb; subst hc1; subst hd1; subst hd2
        have := tryKeysG3_spec h5
        exact ⟨by rw [List.nil_append, ← this.1], this.2⟩
    · rw [if_neg ha] at h1; exact Option.noConfusion h1

theorem findFrom_spec : ∀ {keys : List String} {atStart : Bool}
    {pre t : List Char} {m : MacroMatch},
    findFrom keys atStart pre t = some m →
    pre.reverse ++ t = m.pre ++ m.g1 ++ m.key.toList ++ m.g3 ++ m.post ∧
      m.key ∈ keys := by
  intro keys atStart pre t
  induction t generalizing atStart pre with
  | nil =>
      intro m h
      unfold findFrom at h
      rcases h1 : tryAt keys atStart ([] : List Char) with _ | ⟨g1, k, g3, rest⟩
      · rw [h1] at h; exact Option.noConfusion h
      · rw [h1] at h
        have h2 : some (⟨pre.reverse, g1, k, g3, rest⟩ : MacroMatch) = some m := h
        injection h2 with h3
        subst h3
        have := tryAt_spec h1
        refine ⟨?_, this.2⟩
        rw [this.1]
        simp
  | cons c rest ih =>
      intro m h
      unfold findFrom at h
      rcases h1 : tryAt keys atStart (c :: rest) with _ | ⟨g1, k, g3, rest2⟩
      · rw [h1] at h
        have := ih h
        refine ⟨?_, this.2⟩
        rw [← this.1]
        simp
      · rw [h1] at h
        have h2 : some (⟨pre.reverse, g1, k, g3, rest2⟩ : MacroMatch) = some m := h
        injection h2 with h3
        subst h3
        have := tryAt_spec h1
        refine ⟨?_, this.2⟩
        rw [this.1]
        simp

theorem findMacroMatch_spec {keys : List String} {code : List Char}
    {m : MacroMatch} (h : findMacroMatch keys code = some m) :
    code = m.pre ++ m.g1 ++ m.key.toList ++ m.g3 ++ m.post ∧ m.key ∈ keys := by
  have := findFrom_spec h
  simpa using this

theorem expandLoop_self_fix
    (E : String → List (String × MacroDef) → Except MacroError String)
    (defs : List (String × MacroDef)) (k : Nat) (code : String)
    (h : subnOnce E defs code = .ok (code, 1)) :
    expandLoop E defs (k + 1) code = .error .infiniteRecursion := by
  unfold expandLoop
  rw [h]
  show (if code = code then
      if 0 < 1 then (Except.error .infiniteRecursion : Except MacroError String)
      else Except.ok code
    else expandLoop E defs k code) = .error .infiniteRecursion
  rw [if_pos rfl, if_pos (show (0 : Nat) < 1 by decide)]

theorem expandDefinitionsF_succ (fuel : Nat) (code : String)
    (defs : List (String × MacroDef)) (hne : defs.isEmpty = false) :
    expandDefinitionsF (fuel + 1) code defs =
      expandLoop (fun c d => expandDefinitionsF fuel c d) defs 20000 code := by
  conv_lhs => unfold expandDefinitionsF
  rw [hne]
  rfl

/-- C4 (amended): with the self-referential macro table of
`#define A A`, expanding any line in which the regex finds an invocation
of `A` not consumed by the token-paste operator (neither group 1 nor
group 3 of the first match is `##`) raises the designated
infinite-recursion `SyntaxError` on the very first iteration — it never
exhausts the 20000-iteration bound and never returns the text as a clean
fixpoint.  (When the invocation is token-pasted, e.g. in `B##A`, the
paste marker is consumed and expansion can return cleanly; see the
counterexample.) -/
theorem expand_definitions_self_macro_plain_invocation
    (line : String) (m : MacroMatch)
    (hm : findMacroMatch (sortedKeys [("A", ⟨["A"], none⟩)]) line.toList = some m)
    (h1 : m.g1 ≠ ['#', '#']) (h3 : m.g3 ≠ ['#', '#']) :
    expandDefinitions line [("A", ⟨["A"], none⟩)] = .error .infiniteRecursion := by
  have hspec := findMacroMatch_spec hm
  have hkey : m.key = "A" := by
    have := hspec.2
    rw [show sortedKeys [("A", (⟨["A"], none⟩ : MacroDef))] = ["A"] from rfl] at this
    simpa using this
  have hsubn : subnOnce (fun c d => expandDefinitionsF 999 c d)
      [("A", ⟨["A"], none⟩)] line = .ok (line, 1) := by
    unfold subnOnce
    rw [hm]
    have har : applyRepl (fun c d => expandDefinitionsF 999 c d)
        [("A", ⟨["A"], none⟩)] m = .ok (⟨m.g1⟩ ++ ("A" ++ ⟨m.g3⟩)) := by
      unfold applyRepl
      rw [hkey]
      show (Except.ok (if m.g3 = ['#', '#'] then ("A" : String) else "A" ++ ⟨m.g3⟩)).map
          (fun r => if m.g1 = ['#', '#'] then r else ⟨m.g1⟩ ++ r) = _
      rw [if_neg h3]
      show Except.ok (if m.g1 = ['#', '#'] then ("A" ++ ⟨m.g3⟩ : String)
          else ⟨m.g1⟩ ++ ("A" ++ ⟨m.g3⟩)) = _
      rw [if_neg h1]
    show Except.map (fun r => ((⟨m.pre⟩ : String) ++ r ++ ⟨m.post⟩, 1))
        (applyRepl (fun c d => expandDefinitionsF 999 c d)
          [("A", ⟨["A"], none⟩)] m) = Except.ok (line, 1)
    rw [har]
    show Except.ok ((⟨m.pre⟩ ++ (⟨m.g1⟩ ++ ("A" ++ ⟨m.g3⟩)) ++ ⟨m.post⟩ : String), 1) =
      Except.ok (line, 1)
    have hline : line = ⟨line.toList⟩ := rfl
    have hdec := hspec.1
    rw [hkey] at hdec
    have : (⟨m.pre⟩ ++ (⟨m.g1⟩ ++ ("A" ++ ⟨m.g3⟩)) ++ ⟨m.post⟩ : String) =
        ⟨m.pre ++ m.g1 ++ "A".toList ++ m.g3 ++ m.post⟩ := by
      show (⟨(m.pre ++ ((m.g1 ++ (['A'] ++ m.g3)))) ++ m.post⟩ : String) = _
      apply congrArg String.mk
      simp
    rw [this, ← hdec, ← hline]
  unfold expandDefinitions
  rw [show (1000 : Nat) = 999 + 1 by norm_num,
      expandDefinitionsF_succ 999 line [("A", ⟨["A"], none⟩)] rfl]
  exact expandLoop_self_fix _ _ 19999 line hsubn

theorem expand_definitions_self_macro_witness :
    expandDefinitions "A\n" [("A", ⟨["A"], none⟩)] = .error .infiniteRecursion :=
  expand_definitions_self_macro_plain_invocation "A\n"
    ⟨[], [], "A", [], ['\n']⟩ (by decide) (by decide) (by decide)

/-- C4 counterexample: the line `B##A` invokes `A` (the regex finds a
match), yet expansion returns `BA` cleanly instead of raising the
infinite-recursion error: the token-paste `##` is consumed by the match
and dropped by `repl`, after which `A` is no longer invocable (it now
follows the word character `B`). -/
theorem expand_definitions_token_paste_counterexample :
    (findMacroMatch (sortedKeys [("A", ⟨["A"], none⟩)]) "B##A".toList).isSome = true ∧
    expandDefinitions "B##A" [("A", ⟨["A"], none⟩)] = .ok "BA" :=
  ⟨by decide, by decide⟩

/-- A `Str_sourceline` value: emitted text plus its 0-based originating
source line number. -/
abbrev SrcLine := String × Nat

/-- One row of an aligned sequence: a real emitted line, or the plain
newline string `'\n'` used as padding (modelled as `none`). -/
abbrev PadLine := Option SrcLine

/-- The `maxguard` sentinel of `expand_to_match`. -/
def maxguard : Nat := 2 ^ 30

/-- One `min(minimalsourceline, lines[0].sourceline)` update. -/
def minStep (m : Nat) (l : List SrcLine) : Nat :=
  match l with
  | [] => m
  | x :: _ => min m x.2

/-- The `minimalsourceline` computation: minimum over the heads of all
still-pending sequences, starting from `maxguard`. -/
def minHead (pendings : List (List SrcLine)) : Nat :=
  pendings.foldl minStep maxguard

/-- Per-sequence move step of one `expand_to_match` iteration: when the
pending head originates at or before the minimal source line, move it
into the accumulated rows. -/
def etmMove (minimal : Nat) (p : List PadLine × List SrcLine) :
    List PadLine × List SrcLine :=
  match p.2 with
  | [] => p
  | x :: rest => if x.2 ≤ minimal then (p.1 ++ [some x], rest) else p

/-- Per-sequence padding step: extend with blank lines to the common
length. -/
def etmPad (target : Nat) (p : List PadLine × List SrcLine) :
    List PadLine × List SrcLine :=
  (p.1 ++ List.replicate (target - p.1.length) none, p.2)

/-- One iteration of the `expand_to_match` loop body. -/
def etmStep (state : List (List PadLine × List SrcLine)) :
    List (List PadLine × List SrcLine) :=
  let minimal := minHead (state.map (·.2))
  let moved := state.map (etmMove minimal)
  let target := (moved.map (·.1.length)).foldl max 0
  moved.map (etmPad target)

theorem minStep_nil (m : Nat) : minStep m [] = m := rfl

theorem minStep_cons (m : Nat) (x : SrcLine) (ys : List SrcLine) :
    minStep m (x :: ys) = min m x.2 := rfl

theorem foldl_min_le_acc (ps : List (List SrcLine)) :
    ∀ m : Nat, ps.foldl minStep m ≤ m := by
  induction ps with
  | nil => intro m; exact le_refl m
  | cons a as ih =>
      intro m
      rw [List.foldl_cons]
      rcases a with _ | ⟨y, ys⟩
      · rw [minStep_nil]; exact ih m
      · rw [minStep_cons]
        exact le_trans (ih (min m y.2)) (min_le_left _ _)

theorem foldl_min_le_mem (ps : List (List SrcLine)) :
    ∀ (m : Nat) (l : List SrcLine) (x : SrcLine) (rest : List SrcLine),
      l ∈ ps → l = x :: rest → ps.foldl minStep m ≤ x.2 := by
  induction ps with
  | nil => intro m l x rest h _; exact absurd h (List.not_mem_nil _)
  | cons l0 ps ih =>
      intro m l x rest hmem he
      rw [List.foldl_cons]
      rcases List.mem_cons.mp hmem with h0 | h0
      · rw [← h0, he, minStep_cons]
        exact le_trans (foldl_min_le_acc ps (min m x.2)) (min_le_right _ _)
      · exact ih _ l x rest h0 he

theorem foldl_min_cases (ps : List (List SrcLine)) :
    ∀ m : Nat,
      ps.foldl minStep m = m ∨
      ∃ l ∈ ps, ∃ x rest, l = x :: rest ∧ x.2 = ps.foldl minStep m := by
  induction ps with
  | nil => intro m; exact Or.inl rfl
  | cons l0 ps ih =>
      intro m
      rw [List.foldl_cons]
      rcases l0 with _ | ⟨y, ys⟩
      · rw [minStep_nil]
        rcases ih m with h | ⟨l, hl, x, rest, he, hv⟩
        · exact Or.inl h
        · exact Or.inr ⟨l, List.mem_cons_of_mem _ hl, x, rest, he, hv⟩
      · rw [minStep_cons]
        rcases le_total m y.2 with hle | hle
        · rw [min_eq_left hle]
          rcases ih m with h | ⟨l, hl, x, rest, he, hv⟩
          · exact Or.inl h
          · exact Or.inr ⟨l, List.mem_cons_of_mem _ hl, x, rest, he, hv⟩
        · rw [min_eq_right hle]
          rcases ih y.2 with h | ⟨l, hl, x, rest, he, hv⟩
          · exact Or.inr ⟨y :: ys, List.mem_cons_self _ _, y, ys, rfl, h.symm⟩
          · exact Or.inr ⟨l, List.mem_cons_of_mem _ hl, x, rest, he, hv⟩

theorem etmMove_nil {minimal : Nat} {p : List PadLine × List SrcLine}
    (h : p.2 = []) : etmMove minimal p = p := by
  unfold etmMove; rw [h]

theorem etmMove_cons {minimal : Nat} {p : List PadLine × List SrcLine}
    {x : SrcLine} {rest : List SrcLine} (h : p.2 = x :: rest) :
    etmMove minimal p = if x.2 ≤ minimal then (p.1 ++ [some x], rest) else p := by
  unfold etmMove; rw [h]

theorem etmMove_pending_le (minimal : Nat) (p : List PadLine × List SrcLine) :
    (etmMove minimal p).2.length ≤ p.2.length := by
  rcases hp : p.2 with _ | ⟨x, rest⟩
  · rw [etmMove_nil hp, hp]
  · rw [etmMove_cons hp]
    by_cases hle : x.2 ≤ minimal
    · rw [if_pos hle]
      simp
    · rw [if_neg hle, hp]

/-- Total number of still-pending lines, the loop's termination measure. -/
def pendingTotal (state : List (List PadLine × List SrcLine)) : Nat :=
  (state.map (fun p => p.2.length)).sum

theorem etmStep_pendingTotal_lt (state : List (List PadLine × List SrcLine))
    (h : minHead (state.map (·.2)) ≠ maxguard) :
    pendingTotal (etmStep state) < pendingTotal state := by
  have hstep : pendingTotal (etmStep state) =
      (state.map (fun p => (etmMove (minHead (state.map (·.2))) p).2.length)).sum := by
    unfold pendingTotal etmStep
    rw [List.map_map, List.map_map]
    rfl
  rw [hstep]
  unfold pendingTotal
  apply List.sum_lt_sum
  · intro p _
    exact etmMove_pending_le _ p
  · rcases foldl_min_cases (state.map (·.2)) maxguard with h2 | ⟨l, hl, x, rest, he, hv⟩
    · exact absurd h2 h
    · rcases List.mem_map.mp hl with ⟨p, hp, hpe⟩
      refine ⟨p, hp, ?_⟩
      have hp2 : p.2 = x :: rest := by rw [hpe]; exact he
      have hv2 : x.2 = minHead (state.map (·.2)) := hv
      rw [etmMove_cons hp2, if_pos (le_of_eq hv2), hp2]
      simp

/-- The `while True` loop of `expand_to_match`. -/
def etmLoop (state : List (List PadLine × List SrcLine)) :
    List (List PadLine × List SrcLine) :=
  if h : minHead (state.map (·.2)) = maxguard then state
  else etmLoop (etmStep state)
termination_by pendingTotal state
decreasing_by exact etmStep_pendingTotal_lt state h

theorem etmLoop_eq (state : List (List PadLine × List SrcLine)) :
    etmLoop state =
      if minHead (state.map (·.2)) = maxguard then state
      else etmLoop (etmStep state) := by
  rw [etmLoop]
  by_cases h2 : minHead (state.map (·.2)) = maxguard
  · rw [dif_pos h2, if_pos h2]
  · rw [dif_neg h2, if_neg h2]

/-- Model of `expand_to_match`: run the loop from empty accumulators and
return the accumulated rows per configuration, in the input's key
order. -/
def expandToMatch {κ : Type} (items : List (κ × List SrcLine)) :
    List (κ × List PadLine) :=
  (items.map (·.1)).zip ((etmLoop (items.map (fun p => ([], p.2)))).map (·.1))

theorem le_foldl_max : ∀ (ns : List Nat) (a : Nat), a ≤ ns.foldl max a
  | [], a => le_refl a
  | n :: ns, a => le_trans (le_max_left a n) (le_foldl_max ns (max a n))

theorem mem_le_foldl_max : ∀ (ns : List Nat) (a n : Nat), n ∈ ns → n ≤ ns.foldl max a
  | [], _, _, h => absurd h (List.not_mem_nil _)
  | n0 :: ns, a, n, h => by
      rcases List.mem_cons.mp h with h1 | h1
      · subst h1
        exact le_trans (le_max_right a n) (le_foldl_max ns (max a n))
      · exact mem_le_foldl_max ns (max a n0) n h1

theorem foldl_max_le : ∀ (ns : List Nat) (a b : Nat),
    a ≤ b → (∀ n ∈ ns, n ≤ b) → ns.foldl max a ≤ b
  | [], _, _, ha, _ => ha
  | n :: ns, a, b, ha, hall => by
      refine foldl_max_le ns (max a n) b ?_ (fun n2 h2 => hall n2 (List.mem_cons_of_mem _ h2))
      exact max_le ha (hall n (List.mem_cons_self _ _))

theorem etmStep_target (state : List (List PadLine × List SrcLine)) (L : Nat)
    (hL : ∀ p ∈ state, p.1.length = L)
    (hmin : minHead (state.map (·.2)) ≠ maxguard) :
    ((state.map (etmMove (minHead (state.map (·.2))))).map (·.1.length)).foldl max 0 =
      L + 1 := by
  apply le_antisymm
  · apply foldl_max_le _ 0 (L + 1) (Nat.zero_le _)
    intro n hn
    rcases List.mem_map.mp hn with ⟨q, hq, he⟩
    rcases List.mem_map.mp hq with ⟨p, hp, he2⟩
    subst he2; subst he
    rcases hp2 : p.2 with _ | ⟨x, rest⟩
    · rw [etmMove_nil hp2, hL p hp]
      omega
    · rw [etmMove_cons hp2]
      by_cases hle : x.2 ≤ minHead (state.map (·.2))
      · rw [if_pos hle]
        show (p.1 ++ [some x]).length ≤ L + 1
        rw [List.length_append, hL p hp]
        simp
      · rw [if_neg hle, hL p hp]
        omega
  · rcases foldl_min_cases (state.map (·.2)) maxguard with h2 | ⟨l, hl, x, rest, he, hv⟩
    · exact absurd h2 hmin
    · rcases List.mem_map.mp hl with ⟨p, hp, hpe⟩
      have hp2 : p.2 = x :: rest := by rw [hpe]; exact he
      have hv2 : x.2 = minHead (state.map (·.2)) := hv
      have hlen : (etmMove (minHead (state.map (·.2))) p).1.length = L + 1 := by
        rw [etmMove_cons hp2, if_pos (le_of_eq hv2)]
        show (p.1 ++ [some x]).length = L + 1
        rw [List.length_append, hL p hp]
        rfl
      apply mem_le_foldl_max
      rw [← hlen]
      exact List.mem_map_of_mem _ (List.mem_map_of_mem _ hp)

theorem etmStep_shape (state : List (List PadLine × List SrcLine)) (L : Nat)
    (hL : ∀ p ∈ state, p.1.length = L)
    (hmin : minHead (state.map (·.2)) ≠ maxguard) :
    ∀ q ∈ etmStep state, ∃ p, p ∈ state ∧ ∃ t : PadLine,
      q.1 = p.1 ++ [t] ∧
      (t = none ∨ ∃ x : SrcLine, t = some x ∧ x.2 = minHead (state.map (·.2))) := by
  intro q hq
  unfold etmStep at hq
  rcases List.mem_map.mp hq with ⟨q2, hq2, he⟩
  rcases List.mem_map.mp hq2 with ⟨p, hp, he2⟩
  refine ⟨p, hp, ?_⟩
  have htarget := etmStep_target state L hL hmin
  subst he2
  rcases hp2 : p.2 with _ | ⟨x, rest⟩
  · refine ⟨none, ?_, Or.inl rfl⟩
    rw [← he]
    unfold etmPad
    rw [etmMove_nil hp2, htarget, hL p hp]
    show p.1 ++ List.replicate (L + 1 - L) none = p.1 ++ [none]
    rw [show L + 1 - L = 1 by omega]
    rfl
  · by_cases hle : x.2 ≤ minHead (state.map (·.2))
    · have hxeq : x.2 = minHead (state.map (·.2)) := by
        apply le_antisymm hle
        exact foldl_min_le_mem (state.map (·.2)) maxguard p.2 x rest
          (List.mem_map_of_mem _ hp) hp2
      refine ⟨some x, ?_, Or.inr ⟨x, rfl, hxeq⟩⟩
      rw [← he]
      unfold etmPad
      rw [etmMove_cons hp2, if_pos hle, htarget]
      show (p.1 ++ [some x]) ++
          List.replicate (L + 1 - (p.1 ++ [some x]).length) none = p.1 ++ [some x]
      rw [List.length_append, hL p hp]
      rw [show L + 1 - (L + [some x].length) = 0 by simp]
      rw [List.replicate_zero, List.append_nil]
    · refine ⟨none, ?_, Or.inl rfl⟩
      rw [← he]
      unfold etmPad
      rw [etmMove_cons hp2, if_neg hle, htarget, hL p hp]
      show p.1 ++ List.replicate (L + 1 - L) none = p.1 ++ [none]
      rw [show L + 1 - L = 1 by omega]
      rfl

theorem etmStep_preserves (state : List (List PadLine × List SrcLine)) (L : Nat)
    (hL : ∀ p ∈ state, p.1.length = L)
    (hC : ∀ p, p ∈ state → ∀ q, q ∈ state → ∀ i x y,
      p.1.get? i = some (some x) → q.1.get? i = some (some y) → x.2 = y.2)
    (hmin : minHead (state.map (·.2)) ≠ maxguard) :
    (∀ p ∈ etmStep state, p.1.length = L + 1) ∧
    (∀ p, p ∈ etmStep state → ∀ q, q ∈ etmStep state → ∀ i x y,
      p.1.get? i = some (some x) → q.1.get? i = some (some y) → x.2 = y.2) := by
  have hshape := etmStep_shape state L hL hmin
  constructor
  · intro p hp
    rcases hshape p hp with ⟨p0, hp0, t, he, -⟩
    rw [he, List.length_append, hL p0 hp0]
    rfl
  · intro p hp q hq i x y hx hy
    rcases hshape p hp with ⟨p0, hp0, t1, he1, hd1⟩
    rcases hshape q hq with ⟨q0, hq0, t2, he2, hd2⟩
    rw [he1] at hx
    rw [he2] at hy
    by_cases hi : i < L
    · rw [List.get?_append (by rw [hL p0 hp0]; exact hi)] at hx
      rw [List.get?_append (by rw [hL q0 hq0]; exact hi)] at hy
      exact hC p0 hp0 q0 hq0 i x y hx hy
    · by_cases hi2 : i = L
      · subst hi2
        rw [List.get?_append_right (by rw [hL p0 hp0])] at hx
        rw [List.get?_append_right (by rw [hL q0 hq0])] at hy
        rw [hL p0 hp0, Nat.sub_self] at hx
        rw [hL q0 hq0, Nat.sub_self] at hy
        have ht1 : t1 = some x := by
          have : some t1 = some (some x) := hx
          exact Option.some.inj this
        have ht2 : t2 = some y := by
          have : some t2 = some (some y) := hy
          exact Option.some.inj this
        rcases hd1 with hd1 | ⟨x2, he3, hv3⟩
        · rw [hd1] at ht1; cases ht1
        · rcases hd2 with hd2 | ⟨y2, he4, hv4⟩
          · rw [hd2] at ht2; cases ht2
          · rw [he3] at ht1
            rw [he4] at ht2
            rw [← Option.some.inj ht1, ← Option.some.inj ht2]
            rw [hv3, hv4]
      · have hbig : (p0.1 ++ [t1]).length ≤ i := by
          rw [List.length_append, hL p0 hp0]
          show L + [t1].length ≤ i
          have : L + 1 ≤ i := by omega
          simpa using this
        rw [List.get?_eq_none.mpr hbig] at hx
        cases hx

theorem etmLoop_inv : ∀ (n : Nat) (state : List (List PadLine × List SrcLine)) (L : Nat),
    pendingTotal state ≤ n →
    (∀ p ∈ state, p.1.length = L) →
    (∀ p, p ∈ state → ∀ q, q ∈ state → ∀ i x y,
      p.1.get? i = some (some x) → q.1.get? i = some (some y) → x.2 = y.2) →
    ∃ L2, (∀ p ∈ etmLoop state, p.1.length = L2) ∧
      (∀ p, p ∈ etmLoop state → ∀ q, q ∈ etmLoop state → ∀ i x y,
        p.1.get? i = some (some x) → q.1.get? i = some (some y) → x.2 = y.2)
  | n, state, L, hn, hL, hC => by
      rw [etmLoop_eq]
      by_cases h : minHead (state.map (·.2)) = maxguard
      · rw [if_pos h]
        exact ⟨L, hL, hC⟩
      · rw [if_neg h]
        have hlt := etmStep_pendingTotal_lt state h
        have hstep := etmStep_preserves state L hL hC h
        match n with
        | 0 => omega
        | n + 1 =>
          exact etmLoop_inv n (etmStep state) (L + 1) (by omega) hstep.1 hstep.2

/-- Row indices (counting from `i`) at which a padded column holds a real
entry originating from source line `s`. -/
def rowsOfAux (s : Nat) : List PadLine → Nat → List Nat
  | [], _ => []
  | none :: rest, i => rowsOfAux s rest (i + 1)
  | some x :: rest, i =>
      if x.2 = s then i :: rowsOfAux s rest (i + 1)
      else rowsOfAux s rest (i + 1)

/-- Row indices of the entries of source line `s` in a padded column. -/
def rowsOf (l : List PadLine) (s : Nat) : List Nat := rowsOfAux s l 0

theorem rowsOfAux_append_none (s : Nat) :
    ∀ (l : List PadLine) (i : Nat),
      rowsOfAux s (l ++ [none]) i = rowsOfAux s l i
  | [], i => rfl
  | none :: rest, i => rowsOfAux_append_none s rest (i + 1)
  | some y :: rest, i => by
      show (if y.2 = s then i :: rowsOfAux s (rest ++ [none]) (i + 1)
            else rowsOfAux s (rest ++ [none]) (i + 1)) = _
      rw [rowsOfAux_append_none s rest (i + 1)]
      rfl

theorem rowsOfAux_append_some_ne (s : Nat) (x : SrcLine) (hx : x.2 ≠ s) :
    ∀ (l : List PadLine) (i : Nat),
      rowsOfAux s (l ++ [some x]) i = rowsOfAux s l i
  | [], i => by
      show (if x.2 = s then i :: rowsOfAux s [] (i + 1)
            else rowsOfAux s [] (i + 1)) = _
      rw [if_neg hx]
      rfl
  | none :: rest, i => rowsOfAux_append_some_ne s x hx rest (i + 1)
  | some y :: rest, i => by
      show (if y.2 = s then i :: rowsOfAux s (rest ++ [some x]) (i + 1)
            else rowsOfAux s (rest ++ [some x]) (i + 1)) = _
      rw [rowsOfAux_append_some_ne s x hx rest (i + 1)]
      rfl

theorem rowsOfAux_append_some_eq (s : Nat) (x : SrcLine) (hx : x.2 = s) :
    ∀ (l : List PadLine) (i : Nat),
      rowsOfAux s (l ++ [some x]) i = rowsOfAux s l i ++ [i + l.length]
  | [], i => by
      show (if x.2 = s then i :: rowsOfAux s [] (i + 1)
            else rowsOfAux s [] (i + 1)) = _
      rw [if_pos hx]
      rfl
  | none :: rest, i => by
      show rowsOfAux s (rest ++ [some x]) (i + 1)
          = rowsOfAux s rest (i + 1) ++ [i + (none :: rest : List PadLine).length]
      rw [rowsOfAux_append_some_eq s x hx rest (i + 1)]
      rw [show i + 1 + rest.length = i + (none :: rest : List PadLine).length by
          rw [List.length_cons]; omega]
  | some y :: rest, i => by
      by_cases hy : y.2 = s
      · show (if y.2 = s then i :: rowsOfAux s (rest ++ [some x]) (i + 1)
              else rowsOfAux s (rest ++ [some x]) (i + 1))
            = (if y.2 = s then i :: rowsOfAux s rest (i + 1)
               else rowsOfAux s rest (i + 1)) ++ [i + (some y :: rest : List PadLine).length]
        rw [if_pos hy, if_pos hy, rowsOfAux_append_some_eq s x hx rest (i + 1)]
        rw [show i + 1 + rest.length = i + (some y :: rest : List PadLine).length by
            rw [List.length_cons]; omega]
        rfl
      · show (if y.2 = s then i :: rowsOfAux s (rest ++ [some x]) (i + 1)
              else rowsOfAux s (rest ++ [some x]) (i + 1))
            = (if y.2 = s then i :: rowsOfAux s rest (i + 1)
               else rowsOfAux s rest (i + 1)) ++ [i + (some y :: rest : List PadLine).length]
        rw [if_neg hy, if_neg hy, rowsOfAux_append_some_eq s x hx rest (i + 1)]
        rw [show i + 1 + rest.length = i + (some y :: rest : List PadLine).length by
            rw [List.length_cons]; omega]

theorem rowsOfAux_lt (s : Nat) :
    ∀ (l : List PadLine) (i n : Nat), n ∈ rowsOfAux s l i → n < i + l.length
  | [], i, n, h => absurd h (List.not_mem_nil n)
  | none :: rest, i, n, h => by
      have := rowsOfAux_lt s rest (i + 1) n h
      rw [List.length_cons]
      omega
  | some y :: rest, i, n, h => by
      rw [List.length_cons]
      by_cases hy : y.2 = s
      · rw [show rowsOfAux s (some y :: rest) i
            = i :: rowsOfAux s rest (i + 1) from by
              show (if y.2 = s then _ else _) = _
              rw [if_pos hy]] at h
        rcases List.mem_cons.mp h with he | h2
        · omega
        · have := rowsOfAux_lt s rest (i + 1) n h2
          omega
      · rw [show rowsOfAux s (some y :: rest) i
            = rowsOfAux s rest (i + 1) from by
              show (if y.2 = s then _ else _) = _
              rw [if_neg hy]] at h
        have := rowsOfAux_lt s rest (i + 1) n h
        omega

theorem rowsOf_lt {l : List PadLine} {s n : Nat} (h : n ∈ rowsOf l s) :
    n < l.length := by
  have := rowsOfAux_lt s l 0 n h
  omega

theorem etmStep_shape2 (state : List (List PadLine × List SrcLine)) (L : Nat)
    (hL : ∀ p ∈ state, p.1.length = L)
    (hmin : minHead (state.map (·.2)) ≠ maxguard) :
    ∀ q ∈ etmStep state, ∃ p, p ∈ state ∧
      ((p.2 = [] ∧ q = (p.1 ++ [none], [])) ∨
       (∃ x rest, p.2 = x :: rest ∧ x.2 = minHead (state.map (·.2)) ∧
          q = (p.1 ++ [some x], rest)) ∨
       (∃ x rest, p.2 = x :: rest ∧ ¬ x.2 ≤ minHead (state.map (·.2)) ∧
          q = (p.1 ++ [none], x :: rest))) := by
  intro q hq
  unfold etmStep at hq
  rcases List.mem_map.mp hq with ⟨q2, hq2, he⟩
  rcases List.mem_map.mp hq2 with ⟨p, hp, he2⟩
  refine ⟨p, hp, ?_⟩
  have htarget := etmStep_target state L hL hmin
  subst he2
  rcases hp2 : p.2 with _ | ⟨x, rest⟩
  · refine Or.inl ⟨rfl, ?_⟩
    rw [← he]
    unfold etmPad
    rw [etmMove_nil hp2, htarget, hL p hp]
    show (p.1 ++ List.replicate (L + 1 - L) none, p.2) = (p.1 ++ [none], [])
    rw [show L + 1 - L = 1 by omega, hp2]
    rfl
  · by_cases hle : x.2 ≤ minHead (state.map (·.2))
    · have hxeq : x.2 = minHead (state.map (·.2)) := by
        apply le_antisymm hle
        exact foldl_min_le_mem (state.map (·.2)) maxguard p.2 x rest
          (List.mem_map_of_mem _ hp) hp2
      refine Or.inr (Or.inl ⟨x, rest, rfl, hxeq, ?_⟩)
      rw [← he]
      unfold etmPad
      rw [etmMove_cons hp2, if_pos hle, htarget]
      show ((p.1 ++ [some x]) ++
          List.replicate (L + 1 - (p.1 ++ [some x]).length) none, rest)
          = (p.1 ++ [some x], rest)
      rw [List.length_append, hL p hp]
      rw [show L + 1 - (L + [some x].length) = 0 by simp]
      rw [List.replicate_zero, List.append_nil]
    · refine Or.inr (Or.inr ⟨x, rest, rfl, hle, ?_⟩)
      rw [← he]
      unfold etmPad
      rw [etmMove_cons hp2, if_neg hle, htarget, hL p hp]
      show (p.1 ++ List.replicate (L + 1 - L) none, p.2) = (p.1 ++ [none], x :: rest)
      rw [show L + 1 - L = 1 by omega, hp2]
      rfl

theorem getq_lt {r : List Nat} {k i : Nat} (h : r.get? k = some i) :
    k < r.length := by
  by_contra hge
  rw [List.get?_eq_none.mpr (by omega)] at h
  cases h

theorem getq_append_cases {L : Nat} {r : List Nat} {k i : Nat}
    (h : (r ++ [L]).get? k = some i) :
    (k < r.length ∧ r.get? k = some i) ∨ (k = r.length ∧ i = L) := by
  by_cases hk : k < r.length
  · exact Or.inl ⟨hk, by rw [List.get?_append hk] at h; exact h⟩
  · have hk2 := getq_lt h
    rw [List.length_append] at hk2
    have hk3 : k = r.length := by
      simp only [List.length_singleton] at hk2
      omega
    subst hk3
    rw [List.get?_append_right (le_refl _), Nat.sub_self] at h
    exact Or.inr ⟨rfl, (Option.some.inj h).symm⟩

theorem etmStep_profile (state : List (List PadLine × List SrcLine)) (L : Nat)
    (hL : ∀ p ∈ state, p.1.length = L)
    (hD : ∀ p ∈ state, p.2.Pairwise (fun a b : SrcLine => a.2 ≤ b.2))
    (hmin : minHead (state.map (·.2)) ≠ maxguard) :
    ∀ q ∈ etmStep state, ∀ s : Nat, ∃ p, p ∈ state ∧
      ((rowsOf q.1 s = rowsOf p.1 s ++ [L] ∧
        minHead (state.map (·.2)) = s ∧
        (∃ x, x ∈ p.2 ∧ x.2 = s) ∧
        (∀ x ∈ q.2, x ∈ p.2)) ∨
       (rowsOf q.1 s = rowsOf p.1 s ∧
        (∀ x ∈ q.2, x ∈ p.2) ∧
        (minHead (state.map (·.2)) = s → ∀ x ∈ q.2, x.2 ≠ s))) := by
  intro q hq s
  rcases etmStep_shape2 state L hL hmin q hq with ⟨p, hp, hcase⟩
  refine ⟨p, hp, ?_⟩
  rcases hcase with ⟨hp2, hqe⟩ | ⟨x, rest, hp2, hxv, hqe⟩ | ⟨x, rest, hp2, hnle, hqe⟩
  · subst hqe
    refine Or.inr ⟨rowsOfAux_append_none s p.1 0, ?_, ?_⟩
    · intro x hx; exact absurd hx (List.not_mem_nil x)
    · intro _ x hx; exact absurd hx (List.not_mem_nil x)
  · subst hqe
    by_cases hxs : x.2 = s
    · refine Or.inl ⟨?_, hxv.symm.trans hxs, ⟨x, by rw [hp2]; exact List.mem_cons_self x rest, hxs⟩, ?_⟩
      · have h0 := rowsOfAux_append_some_eq s x hxs p.1 0
        rw [Nat.zero_add, hL p hp] at h0
        exact h0
      · intro y hy
        rw [hp2]
        exact List.mem_cons_of_mem x hy
    · refine Or.inr ⟨rowsOfAux_append_some_ne s x hxs p.1 0, ?_, ?_⟩
      · intro y hy
        rw [hp2]
        exact List.mem_cons_of_mem x hy
      · intro hms
        exact absurd (hxv.trans hms) hxs
  · subst hqe
    refine Or.inr ⟨rowsOfAux_append_none s p.1 0, ?_, ?_⟩
    · intro y hy
      rw [hp2]
      exact hy
    · intro hms y hy hys
      rw [hms] at hnle
      rcases List.mem_cons.mp hy with he | hy2
      · subst he
        exact hnle (le_of_eq hys)
      · have hsorted := hD p hp
        rw [hp2] at hsorted
        have hle2 := (List.pairwise_cons.mp hsorted).1 y hy2
        rw [hys] at hle2
        exact hnle hle2

theorem etmStep_rows_preserves (state : List (List PadLine × List SrcLine)) (L : Nat)
    (hL : ∀ p ∈ state, p.1.length = L)
    (hB : ∀ p, p ∈ state → ∀ q, q ∈ state → ∀ s k i j,
      (rowsOf p.1 s).get? k = some i → (rowsOf q.1 s).get? k = some j → i = j)
    (hC : ∀ p, p ∈ state → ∀ q, q ∈ state → ∀ s,
      (rowsOf p.1 s).length < (rowsOf q.1 s).length → ∀ x ∈ p.2, x.2 ≠ s)
    (hD : ∀ p ∈ state, p.2.Pairwise (fun a b : SrcLine => a.2 ≤ b.2))
    (hmin : minHead (state.map (·.2)) ≠ maxguard) :
    (∀ p, p ∈ etmStep state → ∀ q, q ∈ etmStep state → ∀ s k i j,
      (rowsOf p.1 s).get? k = some i → (rowsOf q.1 s).get? k = some j → i = j) ∧
    (∀ p, p ∈ etmStep state → ∀ q, q ∈ etmStep state → ∀ s,
      (rowsOf p.1 s).length < (rowsOf q.1 s).length → ∀ x ∈ p.2, x.2 ≠ s) ∧
    (∀ p ∈ etmStep state, p.2.Pairwise (fun a b : SrcLine => a.2 ≤ b.2)) := by
  have hprof := etmStep_profile state L hL hD hmin
  refine ⟨?_, ?_, ?_⟩
  · intro q1 hq1 q2 hq2 s k i j hi hj
    rcases hprof q1 hq1 s with ⟨p1, hp1, d1⟩
    rcases hprof q2 hq2 s with ⟨p2, hp2, d2⟩
    rcases d1 with ⟨hr1, hm1, hx1, -⟩ | ⟨hr1, -, -⟩
    · rcases d2 with ⟨hr2, hm2, hx2, -⟩ | ⟨hr2, -, -⟩
      · rw [hr1] at hi
        rw [hr2] at hj
        rcases getq_append_cases hi with ⟨hk1, hget1⟩ | ⟨hk1, hiL⟩
        · rcases getq_append_cases hj with ⟨hk2, hget2⟩ | ⟨hk2, hjL⟩
          · exact hB p1 hp1 p2 hp2 s k i j hget1 hget2
          · exfalso
            rcases hx2 with ⟨y, hy, hys⟩
            exact hC p2 hp2 p1 hp1 s (by omega) y hy hys
        · rcases getq_append_cases hj with ⟨hk2, hget2⟩ | ⟨hk2, hjL⟩
          · exfalso
            rcases hx1 with ⟨y, hy, hys⟩
            exact hC p1 hp1 p2 hp2 s (by omega) y hy hys
          · rw [hiL, hjL]
      · rw [hr1] at hi
        rw [hr2] at hj
        rcases getq_append_cases hi with ⟨hk1, hget1⟩ | ⟨hk1, hiL⟩
        · exact hB p1 hp1 p2 hp2 s k i j hget1 hj
        · exfalso
          have hk2 := getq_lt hj
          rcases hx1 with ⟨y, hy, hys⟩
          exact hC p1 hp1 p2 hp2 s (by omega) y hy hys
    · rcases d2 with ⟨hr2, hm2, hx2, -⟩ | ⟨hr2, -, -⟩
      · rw [hr1] at hi
        rw [hr2] at hj
        rcases getq_append_cases hj with ⟨hk2, hget2⟩ | ⟨hk2, hjL⟩
        · exact hB p1 hp1 p2 hp2 s k i j hi hget2
        · exfalso
          have hk1 := getq_lt hi
          rcases hx2 with ⟨y, hy, hys⟩
          exact hC p2 hp2 p1 hp1 s (by omega) y hy hys
      · rw [hr1] at hi
        rw [hr2] at hj
        exact hB p1 hp1 p2 hp2 s k i j hi hj
  · intro q1 hq1 q2 hq2 s hlen x hx hxs
    rcases hprof q1 hq1 s with ⟨p1, hp1, d1⟩
    rcases hprof q2 hq2 s with ⟨p2, hp2, d2⟩
    rcases d1 with ⟨hr1, hm1, hx1, hsub1⟩ | ⟨hr1, hsub1, hcond1⟩
    · rcases d2 with ⟨hr2, -, -, -⟩ | ⟨hr2, -, -⟩
      · rw [hr1, hr2, List.length_append, List.length_append] at hlen
        rcases hx1 with ⟨y, hy, hys⟩
        exact hC p1 hp1 p2 hp2 s (by simpa using hlen) y hy hys
      · rw [hr1, hr2, List.length_append] at hlen
        simp only [List.length_singleton] at hlen
        rcases hx1 with ⟨y, hy, hys⟩
        exact hC p1 hp1 p2 hp2 s (by omega) y hy hys
    · rcases d2 with ⟨hr2, hm2, -, -⟩ | ⟨hr2, -, -⟩
      · exact hcond1 hm2 x hx hxs
      · rw [hr1, hr2] at hlen
        exact hC p1 hp1 p2 hp2 s hlen x (hsub1 x hx) hxs
  · intro q hq
    rcases etmStep_shape2 state L hL hmin q hq with
      ⟨p, hp, ⟨hp2, hqe⟩ | ⟨x, rest, hp2, -, hqe⟩ | ⟨x, rest, hp2, -, hqe⟩⟩
    · subst hqe
      exact List.Pairwise.nil
    · subst hqe
      have hsorted := hD p hp
      rw [hp2] at hsorted
      exact (List.pairwise_cons.mp hsorted).2
    · subst hqe
      have hsorted := hD p hp
      rw [hp2] at hsorted
      exact hsorted

theorem etmLoop_rows_inv :
    ∀ (n : Nat) (state : List (List PadLine × List SrcLine)) (L : Nat),
    pendingTotal state ≤ n →
    (∀ p ∈ state, p.1.length = L) →
    (∀ p, p ∈ state → ∀ q, q ∈ state → ∀ s k i j,
      (rowsOf p.1 s).get? k = some i → (rowsOf q.1 s).get? k = some j → i = j) →
    (∀ p, p ∈ state → ∀ q, q ∈ state → ∀ s,
      (rowsOf p.1 s).length < (rowsOf q.1 s).length → ∀ x ∈ p.2, x.2 ≠ s) →
    (∀ p ∈ state, p.2.Pairwise (fun a b : SrcLine => a.2 ≤ b.2)) →
    ∀ p, p ∈ etmLoop state → ∀ q, q ∈ etmLoop state → ∀ s k i j,
      (rowsOf p.1 s).get? k = some i → (rowsOf q.1 s).get? k = some j → i = j
  | n, state, L, hn, hL, hB, hC, hD => by
      rw [etmLoop_eq]
      by_cases h : minHead (state.map (·.2)) = maxguard
      · rw [if_pos h]
        exact hB
      · rw [if_neg h]
        have hlt := etmStep_pendingTotal_lt state h
        have hlen : ∀ p ∈ etmStep state, p.1.length = L + 1 := by
          intro p hp
          rcases etmStep_shape state L hL h p hp with ⟨p0, hp0, t, he, -⟩
          rw [he, List.length_append, hL p0 hp0]
          rfl
        have hstep := etmStep_rows_preserves state L hL hB hC hD h
        match n with
        | 0 => omega
        | n + 1 =>
          exact etmLoop_rows_inv n (etmStep state) (L + 1) (by omega) hlen
            hstep.1 hstep.2.1 hstep.2.2

/-- C6 (amended): for input sequences whose source line numbers are
nondecreasing, which is how `preprocess_filename` produces them, the
alignment step returns sequences of equal length; real rows at the same
index originate from the same source line; and the k-th entry of any
source line `s` occupies the same row index in every returned sequence
that has one, so the content of a source line is aligned across all
variants and every other position of those rows is padding. -/
theorem expand_to_match_same_source_rows {κ : Type}
    (items : List (κ × List SrcLine))
    (hsorted : ∀ p ∈ items, p.2.Pairwise (fun a b : SrcLine => a.2 ≤ b.2)) :
    (∀ p ∈ expandToMatch items, ∀ q ∈ expandToMatch items,
      p.2.length = q.2.length) ∧
    (∀ p, p ∈ expandToMatch items → ∀ q, q ∈ expandToMatch items → ∀ i x y,
      p.2.get? i = some (some x) → q.2.get? i = some (some y) → x.2 = y.2) ∧
    (∀ p, p ∈ expandToMatch items → ∀ q, q ∈ expandToMatch items → ∀ s k i j,
      (rowsOf p.2 s).get? k = some i → (rowsOf q.2 s).get? k = some j → i = j) := by
  have h0 := etmLoop_inv (pendingTotal (items.map (fun p => ([], p.2))))
    (items.map (fun p => ([], p.2))) 0 le_rfl
    (by intro p hp; rcases List.mem_map.mp hp with ⟨a, -, he⟩; rw [← he]; rfl)
    (by
      intro p hp q hq i x y hx hy
      rcases List.mem_map.mp hp with ⟨a, -, he⟩
      rw [← he] at hx
      cases (List.get?_eq_none.mpr (by simp) : ([] : List PadLine).get? i = none) ▸ hx)
  rcases h0 with ⟨L2, hA, hB⟩
  have hrows := etmLoop_rows_inv (pendingTotal (items.map (fun p => ([], p.2))))
    (items.map (fun p => ([], p.2))) 0 le_rfl
    (by intro p hp; rcases List.mem_map.mp hp with ⟨a, -, he⟩; rw [← he]; rfl)
    (by
      intro p hp q hq s k i j hi hj
      rcases List.mem_map.mp hp with ⟨a, -, he⟩
      rw [← he] at hi
      cases (List.get?_eq_none.mpr (by simp) : ([] : List Nat).get? k = none) ▸ hi)
    (by
      intro p hp q hq s hlen x hx
      rcases List.mem_map.mp hq with ⟨a, -, he⟩
      rw [← he] at hlen
      exact absurd hlen (Nat.not_lt_zero _))
    (by
      intro p hp
      rcases List.mem_map.mp hp with ⟨a, ha, he⟩
      rw [← he]
      exact hsorted a ha)
  have hmem : ∀ p, p ∈ expandToMatch items →
      ∃ q, q ∈ etmLoop (items.map (fun p => ([], p.2))) ∧ q.1 = p.2 := by
    intro p hp
    unfold expandToMatch at hp
    have := (List.of_mem_zip hp).2
    rcases List.mem_map.mp this with ⟨q, hq, he⟩
    exact ⟨q, hq, he⟩
  refine ⟨?_, ?_, ?_⟩
  · intro p hp q hq
    rcases hmem p hp with ⟨p2, hp2, he1⟩
    rcases hmem q hq with ⟨q2, hq2, he2⟩
    rw [← he1, ← he2, hA p2 hp2, hA q2 hq2]
  · intro p hp q hq i x y hx hy
    rcases hmem p hp with ⟨p2, hp2, he1⟩
    rcases hmem q hq with ⟨q2, hq2, he2⟩
    rw [← he1] at hx
    rw [← he2] at hy
    exact hB p2 hp2 q2 hq2 i x y hx hy
  · intro p hp q hq s k i j hi hj
    rcases hmem p hp with ⟨p2, hp2, he1⟩
    rcases hmem q hq with ⟨q2, hq2, he2⟩
    rw [← he1] at hi
    rw [← he2] at hj
    exact hrows p2 hp2 q2 hq2 s k i j hi hj

/-- Witness for the alignment theorem at two sorted columns sharing
source line 2. -/
theorem expand_to_match_same_source_rows_witness :
    (∀ p ∈ [(("a" : String), [(("x\n" : String), 0), ("y\n", 2)]),
            ("b", [("z\n", 2)])],
      p.2.Pairwise (fun a b : SrcLine => a.2 ≤ b.2)) ∧
    ((∀ p ∈ expandToMatch [(("a" : String), [(("x\n" : String), 0), ("y\n", 2)]),
            ("b", [("z\n", 2)])],
        ∀ q ∈ expandToMatch [(("a" : String), [(("x\n" : String), 0), ("y\n", 2)]),
            ("b", [("z\n", 2)])], p.2.length = q.2.length) ∧
     (∀ p, p ∈ expandToMatch [(("a" : String), [(("x\n" : String), 0), ("y\n", 2)]),
            ("b", [("z\n", 2)])] →
        ∀ q, q ∈ expandToMatch [(("a" : String), [(("x\n" : String), 0), ("y\n", 2)]),
            ("b", [("z\n", 2)])] → ∀ i x y,
        p.2.get? i = some (some x) → q.2.get? i = some (some y) → x.2 = y.2) ∧
     (∀ p, p ∈ expandToMatch [(("a" : String), [(("x\n" : String), 0), ("y\n", 2)]),
            ("b", [("z\n", 2)])] →
        ∀ q, q ∈ expandToMatch [(("a" : String), [(("x\n" : String), 0), ("y\n", 2)]),
            ("b", [("z\n", 2)])] → ∀ s k i j,
        (rowsOf p.2 s).get? k = some i → (rowsOf q.2 s).get? k = some j → i = j)) :=
  ⟨by decide,
   expand_to_match_same_source_rows
     [(("a" : String), [(("x\n" : String), 0), ("y\n", 2)]), ("b", [("z\n", 2)])]
     (by decide)⟩

/-- C6 counterexample: on unsorted columns the claim fails. With
`a = [y@7, x@5]` and `b = [x@5, y@7]`, the aligner emits `b`'s `x@5`
at row 0, then both `y@7`s at row 1, then `a`'s `x@5` at row 2: the
two entries of source line 5 occupy different rows. -/
theorem expand_to_match_unsorted_counterexample :
    expandToMatch [(("a" : String), [(("y\n" : String), 7), ("x\n", 5)]),
                   ("b", [("x\n", 5), ("y\n", 7)])] =
      [("a", [none, some ("y\n", 7), some ("x\n", 5)]),
       ("b", [some ("x\n", 5), some ("y\n", 7), none])] ∧
    rowsOf [none, some (("y\n" : String), 7), some ("x\n", 5)] 5 = [2] ∧
    rowsOf [some (("x\n" : String), 5), some ("y\n", 7), none] 5 = [0] := by
  refine ⟨?_, by decide, by decide⟩
  have e1 : etmLoop [(([] : List PadLine), [(("y\n" : String), 7), ("x\n", 5)]),
      ([], [("x\n", 5), ("y\n", 7)])] =
      etmLoop [([none], [(("y\n" : String), 7), ("x\n", 5)]),
        ([some ("x\n", 5)], [("y\n", 7)])] := by
    rw [etmLoop_eq, if_neg (by decide)]
    rw [show etmStep [(([] : List PadLine), [(("y\n" : String), 7), ("x\n", 5)]),
        ([], [("x\n", 5), ("y\n", 7)])] =
        [([none], [(("y\n" : String), 7), ("x\n", 5)]),
         ([some ("x\n", 5)], [("y\n", 7)])] from by decide]
  have e2 : etmLoop [([none], [(("y\n" : String), 7), ("x\n", 5)]),
      ([some ("x\n", 5)], [("y\n", 7)])] =
      etmLoop [([none, some ("y\n", 7)], [(("x\n" : String), 5)]),
        ([some ("x\n", 5), some ("y\n", 7)], [])] := by
    rw [etmLoop_eq, if_neg (by decide)]
    rw [show etmStep [([none], [(("y\n" : String), 7), ("x\n", 5)]),
        ([some ("x\n", 5)], [("y\n", 7)])] =
        [([none, some ("y\n", 7)], [(("x\n" : String), 5)]),
         ([some ("x\n", 5), some ("y\n", 7)], [])] from by decide]
  have e3 : etmLoop [([none, some ("y\n", 7)], [(("x\n" : String), 5)]),
      ([some ("x\n", 5), some ("y\n", 7)], [])] =
      etmLoop [([none, some ("y\n", 7), some ("x\n", 5)], ([] : List SrcLine)),
        ([some ("x\n", 5), some ("y\n", 7), none], [])] := by
    rw [etmLoop_eq, if_neg (by decide)]
    rw [show etmStep [([none, some ("y\n", 7)], [(("x\n" : String), 5)]),
        ([some ("x\n", 5), some ("y\n", 7)], [])] =
        [([none, some ("y\n", 7), some ("x\n", 5)], ([] : List SrcLine)),
         ([some ("x\n", 5), some ("y\n", 7), none], [])] from by decide]
  have e4 : etmLoop [([none, some ("y\n", 7), some ("x\n", 5)], ([] : List SrcLine)),
      ([some ("x\n", 5), some ("y\n", 7), none], [])] =
      [([none, some (("y\n" : String), 7), some ("x\n", 5)], []),
       ([some ("x\n", 5), some ("y\n", 7), none], [])] := by
    rw [etmLoop_eq, if_pos (by decide)]
  show (([("a", [(("y\n" : String), 7), ("x\n", 5)]),
         ("b", [("x\n", 5), ("y\n", 7)])].map (fun p => p.1)).zip
      ((etmLoop [(([] : List PadLine), [(("y\n" : String), 7), ("x\n", 5)]),
        ([], [("x\n", 5), ("y\n", 7)])]).map (fun p => p.1))) = _
  rw [e1, e2, e3, e4]
  rfl

/-! Directive regeneration: `produce_preprocessor` (lines 732-762) together
with `ConfigurationGroups.exact_reverse` (lines 341-359), `format_tags`
(lines 361-362), `Configuration.format_tag` (lines 101-102) and
`Condition.format_cond` (lines 297-301). A tagged line (class `Str`) is a
pair of its text and its `ConfigurationGroups` tag. -/

/-- Tagged line: the text together with its ConfigurationGroups tag,
modelling the `Str` subclass used for merging. -/
abbrev TLine := String × Group

/-- Model of `Condition.format_cond`: the directive, prefixed with `!` when
the value is False. -/
def formatCond (c : Cond) : String := if c.2 then c.1 else "!" ++ c.1

/-- Python `sep.join(items)` on a list of strings. -/
def joinSep (sep : String) : List String → String
  | [] => ""
  | [s] => s
  | s :: s2 :: rest => s ++ sep ++ joinSep sep (s2 :: rest)

/-- Model of `Configuration.format_tag`: the conditions joined with
`&&`. -/
def formatTag (cfg : Config) : String := joinSep " && " (cfg.map formatCond)

/-- Model of `ConfigurationGroups.format_tags`: the configurations, sorted,
each parenthesised, joined with `\x7c\x7c`. -/
def formatTags (g : Group) : String :=
  joinSep " || " ((mkGroup g).map (fun x => "(" ++ formatTag x ++ ")"))

/-- Model of `ConfigurationGroups.exact_reverse` (called as
`key.exact_reverse(state)`): truthy exactly when both groups hold exactly
one Configuration of exactly one Condition, with equal names and with
`sorted([v1, v2]) == [False, True]`. -/
def exactReverse (key st : Group) : Bool :=
  match key, st with
  | [[c1]], [[c2]] =>
      c1.1 == c2.1 && decide (List.insertionSort boolLe [c1.2, c2.2] = [false, true])
  | _, _ => false

/-- Model of the loop of `produce_preprocessor`. The first argument is the
`state` variable: `none` before any line was seen, otherwise the previous
tag group. Python truthiness is compiled in: with `state = None` the
`key == state` test and `exact_reverse` are falsy and `if state:` fails,
so only the `#if` for a non-empty key is emitted. -/
def producePreprocessorGo : Option Group → List TLine → List String
  | none, [] => []
  | some st, [] =>
      if st.isEmpty then [] else ["#endif /* " ++ formatTags st ++ " */\n"]
  | none, line :: rest =>
      (if line.2.isEmpty then [] else ["#if " ++ formatTags line.2 ++ "\n"]) ++
      line.1 :: producePreprocessorGo (some line.2) rest
  | some st, line :: rest =>
      if line.2 = st then
        line.1 :: producePreprocessorGo (some st) rest
      else if exactReverse line.2 st then
        ("#else /* " ++ formatTags st ++ " */\n") :: line.1 ::
          producePreprocessorGo (some line.2) rest
      else
        (if st.isEmpty then [] else ["#endif /* " ++ formatTags st ++ " */\n"]) ++
        (if line.2.isEmpty then [] else ["#if " ++ formatTags line.2 ++ "\n"]) ++
        line.1 :: producePreprocessorGo (some line.2) rest

/-- Model of `produce_preprocessor`: run the loop from `state = None`. -/
def producePreprocessor (lines : List TLine) : List String :=
  producePreprocessorGo none lines

/-- Claim-side test, written from the words of the spec: the previous and
the new group each contain exactly one Configuration of exactly one
Condition, with the same condition name and opposite truth values. -/
def specElse (prev new : Group) : Bool :=
  match prev, new with
  | [[c1]], [[c2]] => c1.1 == c2.1 && c2.2 == !c1.2
  | _, _ => false

/-- Claim-side renderer, written from the words of the spec: an unchanged
tag group emits just the line; at a change, `#else` exactly under
`specElse`, otherwise `#endif` for a non-empty previous group followed by
`#if` for a non-empty new group; after the last line a still-open
non-empty group is closed with a final `#endif`. The initial open group
is empty. -/
def ppSpecGo : Group → List TLine → List String
  | prev, [] =>
      if prev.isEmpty then [] else ["#endif /* " ++ formatTags prev ++ " */\n"]
  | prev, line :: rest =>
      if line.2 = prev then
        line.1 :: ppSpecGo prev rest
      else if specElse prev line.2 then
        ("#else /* " ++ formatTags prev ++ " */\n") :: line.1 ::
          ppSpecGo line.2 rest
      else
        (if prev.isEmpty then [] else ["#endif /* " ++ formatTags prev ++ " */\n"]) ++
        (if line.2.isEmpty then [] else ["#if " ++ formatTags line.2 ++ "\n"]) ++
        line.1 :: ppSpecGo line.2 rest

/-- Claim-side model of the whole directive regenerator. -/
def producePreprocessorSpec (lines : List TLine) : List String :=
  ppSpecGo [] lines

theorem exactReverse_eq_specElse (prev new : Group) :
    exactReverse new prev = specElse prev new := by
  have hkey : ∀ c1 c2 : Cond, exactReverse [[c1]] [[c2]] = specElse [[c2]] [[c1]] := by
    intro c1 c2
    show (c1.1 == c2.1 && decide (List.insertionSort boolLe [c1.2, c2.2] = [false, true]))
         = (c2.1 == c1.1 && c1.2 == !c2.2)
    by_cases h : c1.1 = c2.1
    · rw [h, beq_self_eq_true]
      rcases hb1 : c1.2 <;> rcases hb2 : c2.2 <;> decide
    · rw [beq_eq_false_iff_ne.mpr h, beq_eq_false_iff_ne.mpr (Ne.symm h)]
      rfl
  rcases new with _ | ⟨_ | ⟨c1, _ | ⟨c1b, cs1⟩⟩, _ | ⟨cfg1b, g1⟩⟩ <;>
    rcases prev with _ | ⟨_ | ⟨c2, _ | ⟨c2b, cs2⟩⟩, _ | ⟨cfg2b, g2⟩⟩ <;>
    try rfl
  exact hkey c1 c2

theorem producePreprocessorGo_some_eq :
    ∀ (lines : List TLine) (st : Group),
      producePreprocessorGo (some st) lines = ppSpecGo st lines
  | [], st => rfl
  | line :: rest, st => by
      show (if line.2 = st then
              line.1 :: producePreprocessorGo (some st) rest
            else if exactReverse line.2 st then
              ("#else /* " ++ formatTags st ++ " */\n") :: line.1 ::
                producePreprocessorGo (some line.2) rest
            else
              (if st.isEmpty then [] else ["#endif /* " ++ formatTags st ++ " */\n"]) ++
              (if line.2.isEmpty then [] else ["#if " ++ formatTags line.2 ++ "\n"]) ++
              line.1 :: producePreprocessorGo (some line.2) rest) = _
      rw [exactReverse_eq_specElse st line.2]
      rw [producePreprocessorGo_some_eq rest st, producePreprocessorGo_some_eq rest line.2]
      rfl

/-- C9: refinement between the directive regenerator translated from the
code (whose decision is `ConfigurationGroups.exact_reverse` and Python
truthiness of the `state` variable) and the renderer written from the
claim: at a tag-group change, `#else` is emitted exactly when the previous
and new groups each contain exactly one Configuration of exactly one
Condition with the same condition name and opposite truth values; at every
other change, `#endif` is emitted for a non-empty previous group, then
`#if` for a non-empty new group; and after the last line a still-open
non-empty group is closed with a final `#endif`. -/
theorem produce_preprocessor_else_endif_if (lines : List TLine) :
    producePreprocessor lines = producePreprocessorSpec lines := by
  show producePreprocessorGo none lines = ppSpecGo [] lines
  match lines with
  | [] => rfl
  | line :: rest =>
      obtain ⟨t, g⟩ := line
      show (if g.isEmpty then [] else ["#if " ++ formatTags g ++ "\n"]) ++
            t :: producePreprocessorGo (some g) rest = _
      rw [producePreprocessorGo_some_eq rest g]
      rcases g with _ | ⟨cfg, g2⟩ <;> rfl

/-! Per-configuration preprocessing: the loop body of `preprocess_filename`
(lines 538-618), with `define_re` (line 54), `parse_parameter_names`
(lines 804-814) and `Configuration.is_condition_true` (lines 123-132). -/

theorem dropWhile_append_eq (p : Char → Bool) (l1 l2 : List Char) :
    (l1 ++ l2).dropWhile p =
      if (l1.dropWhile p).isEmpty then l2.dropWhile p else l1.dropWhile p ++ l2 := by
  induction l1 with
  | nil => simp
  | cons c t ih =>
      by_cases hp : p c
      · simpa [List.dropWhile_cons, hp] using ih
      · simp [List.dropWhile_cons, hp]

theorem dropWhile_idem (p : Char → Bool) (l : List Char) :
    (l.dropWhile p).dropWhile p = l.dropWhile p := by
  induction l with
  | nil => rfl
  | cons c t ih =>
      by_cases hp : p c
      · simpa [List.dropWhile_cons, hp] using ih
      · simp [List.dropWhile_cons, hp]

theorem pyRstripList_cons (c : Char) (t : List Char) :
    pyRstripList (c :: t) =
      if (pyRstripList t).isEmpty then (if pyIsSpace c then [] else [c])
      else c :: pyRstripList t := by
  unfold pyRstripList
  rw [List.reverse_cons, dropWhile_append_eq]
  by_cases he : (t.reverse.dropWhile pyIsSpace).isEmpty
  · rw [if_pos he, if_pos (by simpa using he)]
    by_cases hp : pyIsSpace c
    · simp [List.dropWhile_cons, hp]
    · simp [List.dropWhile_cons, hp]
  · rw [if_neg he, if_neg (by simpa using he)]
    simp

theorem pyRstripList_cons_of_not_space (c : Char) (t : List Char)
    (hp : pyIsSpace c = false) :
    pyRstripList (c :: t) = c :: pyRstripList t := by
  rw [pyRstripList_cons, hp]
  by_cases he : (pyRstripList t).isEmpty
  · rw [if_pos he, if_neg (by simp)]
    rw [List.isEmpty_iff.mp he]
  · rw [if_neg he]

theorem lstrip_rstrip_comm (l : List Char) :
    pyLstripList (pyRstripList l) = pyRstripList (pyLstripList l) := by
  induction l with
  | nil => rfl
  | cons c t ih =>
      by_cases hp : pyIsSpace c
      · rw [pyRstripList_cons]
        by_cases he : (pyRstripList t).isEmpty
        · rw [if_pos he, if_pos hp]
          show pyLstripList [] = pyRstripList (pyLstripList (c :: t))
          rw [show pyLstripList (c :: t) = pyLstripList t from by
                simp [pyLstripList, List.dropWhile_cons, hp]]
          rw [← ih, List.isEmpty_iff.mp he]
        · rw [if_neg he]
          show pyLstripList (c :: pyRstripList t) = pyRstripList (pyLstripList (c :: t))
          rw [show pyLstripList (c :: pyRstripList t) = pyLstripList (pyRstripList t) from by
                simp [pyLstripList, List.dropWhile_cons, hp]]
          rw [show pyLstripList (c :: t) = pyLstripList t from by
                simp [pyLstripList, List.dropWhile_cons, hp]]
          exact ih
      · rw [pyRstripList_cons_of_not_space c t (by simpa using hp)]
        rw [show pyLstripList (c :: pyRstripList t) = c :: pyRstripList t from by
              simp [pyLstripList, List.dropWhile_cons, hp]]
        rw [show pyLstripList (c :: t) = c :: t from by
              simp [pyLstripList, List.dropWhile_cons, hp]]
        rw [pyRstripList_cons_of_not_space c t (by simpa using hp)]

theorem pyRstripList_idem (l : List Char) :
    pyRstripList (pyRstripList l) = pyRstripList l := by
  unfold pyRstripList
  rw [List.reverse_reverse, dropWhile_idem]

theorem pyLstripList_idem (l : List Char) :
    pyLstripList (pyLstripList l) = pyLstripList l := dropWhile_idem _ l

theorem pyStrip_lstrip_rstrip (s : String) :
    pyStrip (pyLstrip (pyRstrip s)) = pyStrip s := by
  show (⟨pyRstripList (pyLstripList (pyLstripList (pyRstripList s.toList)))⟩ : String)
      = ⟨pyRstripList (pyLstripList s.toList)⟩
  rw [pyLstripList_idem, lstrip_rstrip_comm, pyRstripList_idem]

/-- Regex class `[a-zA-Z_]`, the first character of a name. -/
def isAlphaUnd (c : Char) : Bool := c.isAlpha || c = '_'

/-- Python `list.startswith` test on character lists (second argument is
the pattern). -/
def startsWithList : List Char → List Char → Bool
  | _, [] => true
  | [], _ :: _ => false
  | c :: s, d :: pat => c = d && startsWithList s pat

/-- Model of the optional group `(\((?:[^,)]+,)*[^,)]+\))?` of `define_re`:
an opening parenthesis, then comma-separated chunks of characters other
than `,` and `)` (none empty), closed by the first `)`. Returns the
matched group including parentheses, and the remainder. -/
def defineParenGroup (t : List Char) : Option (List Char × List Char) :=
  match t with
  | '(' :: r =>
      let body := r.takeWhile (fun c => !(c = ')'))
      let rest := r.dropWhile (fun c => !(c = ')'))
      match rest with
      | ')' :: r2 =>
          if body.contains ')' then none
          else if (splitOnComma body).all (fun part => !part.isEmpty) then
            some ('(' :: body ++ [')'], r2)
          else none
      | _ => none
  | _ => none

/-- Model of `define_re.match(stripped)`:
`^#define\s+([a-zA-Z_]\w*)(\((?:[^,)]+,)*[^,)]+\))?\s+(.*)$`, returning
the name, the optional parenthesised parameter group and the value text.
When the parameter group matches but no whitespace follows it, the
regex backtracks to the group-absent alternative, which then fails on
the opening parenthesis. -/
def defineReMatch (t : List Char) : Option (String × Option String × String) :=
  match t with
  | '#' :: 'd' :: 'e' :: 'f' :: 'i' :: 'n' :: 'e' :: rest =>
      if (rest.takeWhile pyIsSpace).isEmpty then none
      else
        match rest.dropWhile pyIsSpace with
        | [] => none
        | c :: r2 =>
            if isAlphaUnd c then
              let nm : List Char := c :: r2.takeWhile isWordChar
              let r3 := r2.dropWhile isWordChar
              match defineParenGroup r3 with
              | some (grp, r4) =>
                  if (r4.takeWhile pyIsSpace).isEmpty then none
                  else some (⟨nm⟩, some ⟨grp⟩, ⟨r4.dropWhile pyIsSpace⟩)
              | none =>
                  if (r3.takeWhile pyIsSpace).isEmpty then none
                  else some (⟨nm⟩, none, ⟨r3.dropWhile pyIsSpace⟩)
            else none
  | _ => none

/-- Regex `param_name_re = ^[a-zA-Z_]\w*$` on a stripped parameter. -/
def paramNameOk : List Char → Bool
  | [] => false
  | c :: r => isAlphaUnd c && r.all isWordChar

/-- Model of `parse_parameter_names`: strip the parentheses, split on
commas, strip each name, and raise `SyntaxError` on an invalid name. -/
def parseParamNames (grp : String) : Except Unit (List String) :=
  let parts := (splitOnComma (grp.toList.drop 1).dropLast).map (fun v => pyStrip ⟨v⟩)
  if parts.all (fun p => paramNameOk p.toList) then .ok parts else .error ()

/-- Model of `Configuration.is_condition_true`: for `#if X` membership of
`(X, True)`, for `#ifdef X` membership of `(defined(X), True)`; any other
directive is an `AssertionError`. The parameter is everything after the
first space, unstripped. -/
def isConditionTrue (c : Config) (directive : String) : Except Unit Bool :=
  if startsWithList directive.toList "#if ".toList then
    match (splitFirstSpace directive.toList).2 with
    | some r => .ok (c.contains (⟨r⟩, true))
    | none => .error ()
  else if startsWithList directive.toList "#ifdef ".toList then
    match (splitFirstSpace directive.toList).2 with
    | some r => .ok (c.contains ("defined(" ++ (⟨r⟩ : String) ++ ")", true))
    | none => .error ()
  else .error ()

/-- Python `str.split(sep)` for a newline separator, on character lists. -/
def splitOnNl : List Char → List (List Char)
  | [] => [[]]
  | c :: rest =>
      if c = '\n' then [] :: splitOnNl rest
      else
        match splitOnNl rest with
        | a :: parts => (c :: a) :: parts
        | [] => [[c]]

/-- State of the `preprocess_filename` loop: line counter, the name of a
continued `#define` (when the previous value ended in a backslash), the
macro table, the produced tagged lines and the `including_section`
stack (top first, modelling append and pop at the end of the Python
list). -/
structure PPState where
  linecount : Nat
  currentName : Option String
  definitions : List (String × MacroDef)
  result : List SrcLine
  includingSection : List Bool
deriving DecidableEq

/-- Assignment `definitions[name]['lines'].append(value)` on the
association-list table. -/
def appendDefLine (defs : List (String × MacroDef)) (name value : String) :
    List (String × MacroDef) :=
  defs.map (fun p =>
    if p.1 = name then (p.1, { p.2 with lines := p.2.lines ++ [value] }) else p)

/-- Assignment `definitions[name] = d` on the association-list table:
replace an existing entry, else insert at the end. -/
def setDef (defs : List (String × MacroDef)) (name : String) (d : MacroDef) :
    List (String × MacroDef) :=
  if (defs.map (·.1)).contains name then
    defs.map (fun p => if p.1 = name then (name, d) else p)
  else defs ++ [(name, d)]

/-- Model of one iteration of the `preprocess_filename` loop. A
`SyntaxError` (which the code turns into `sys.exit(1)`) and a re-raised
expansion error both abort the run. -/
def preprocessLine (config : Option Config) (st : PPState) (line : String) :
    Except Unit PPState :=
  let linecount := st.linecount + 1
  let rstripped := pyRstrip line
  let stripped := pyLstrip rstripped
  match st.currentName with
  | some name =>
      if endsWithChar rstripped '\\' then
        .ok { st with
              linecount := linecount
              definitions := appendDefLine st.definitions name
                (pyRstrip ⟨rstripped.toList.dropLast⟩) }
      else
        .ok { st with
              linecount := linecount
              currentName := none
              definitions := appendDefLine st.definitions name rstripped }
  | none =>
      let m := match st.includingSection with
               | [] => defineReMatch stripped.toList
               | b :: _ => if b then defineReMatch stripped.toList else none
      match m with
      | some (name, params, value0) =>
          let value1 := pyStrip value0
          let value := if endsWithChar value1 '\\' then
                         pyRstrip ⟨value1.toList.dropLast⟩
                       else value1
          let newCur := if endsWithChar value1 '\\' then some name else none
          match params with
          | none =>
              .ok { st with
                    linecount := linecount
                    currentName := newCur
                    definitions := setDef st.definitions name ⟨[value], none⟩ }
          | some grp =>
              match parseParamNames grp with
              | .error e => .error e
              | .ok ps =>
                  .ok { st with
                        linecount := linecount
                        currentName := newCur
                        definitions := setDef st.definitions name ⟨[value], some ps⟩ }
      | none =>
          match matchCondition stripped, config with
          | some _, some cfg =>
              if stripped = "#else" then
                match st.includingSection with
                | [] => .error ()
                | b :: rest =>
                    .ok { st with
                          linecount := linecount
                          includingSection := (!b) :: rest }
              else if stripped = "#endif" then
                match st.includingSection with
                | [] => .error ()
                | _ :: rest =>
                    .ok { st with
                          linecount := linecount
                          includingSection := rest }
              else
                match isConditionTrue cfg stripped with
                | .error e => .error e
                | .ok b =>
                    .ok { st with
                          linecount := linecount
                          includingSection := b :: st.includingSection }
          | _, _ =>
              match st.includingSection with
              | false :: _ => .ok { st with linecount := linecount }
              | _ =>
                  if startsWithList stripped.toList ['#'] then
                    .ok { st with
                          linecount := linecount
                          result := st.result ++ [(line, linecount - 1)] }
                  else
                    match expandDefinitions line st.definitions with
                    | .error _ => .error ()
                    | .ok expanded =>
                        let parts := splitOnNl expanded.toList
                        let parts2 := match parts.getLast? with
                                      | some [] => parts.dropLast
                                      | _ => parts
                        .ok { st with
                              linecount := linecount
                              result := st.result ++
                                parts2.map (fun l =>
                                  ((⟨l⟩ : String) ++ "\n", linecount - 1)) }

/-- C10: a line whose stripped text ends with a colon is rejected by
`Condition.match_condition`; the configuration scan treats it as a
content line (it succeeds and leaves the directive stack unchanged), and
the per-configuration preprocessor never treats it as a conditional
directive (whenever its step succeeds, the `including_section` stack is
unchanged). -/
theorem match_condition_rejects_colon (line : String) (st : ScanState)
    (config : Option Config) (ps : PPState)
    (h : endsWithChar (pyStrip line) ':' = true) :
    matchCondition line = none ∧
    (∃ st2, scanLine st line = .ok st2 ∧ st2.stack = st.stack) ∧
    (∀ ps2, preprocessLine config ps line = .ok ps2 →
      ps2.includingSection = ps.includingSection) := by
  have hmc0 : matchCondition line = none := by
    unfold matchCondition
    simp only [h]
    rfl
  have hmc : matchCondition (pyLstrip (pyRstrip line)) = none := by
    unfold matchCondition
    have h2 : endsWithChar (pyStrip (pyLstrip (pyRstrip line))) ':' = true := by
      rw [pyStrip_lstrip_rstrip]; exact h
    simp only [h2]
    rfl
  refine ⟨hmc0, ⟨{ st with observed :=
      (if st.stack.isEmpty then st.observed
       else insertSet (mkConfig st.stack) st.observed) }, ?_, rfl⟩, ?_⟩
  · unfold scanLine
    rw [hmc0]
  · intro ps2 hok
    unfold preprocessLine at hok
    simp only [hmc] at hok
    repeat' split at hok
    all_goals try (cases hok; rfl)
    all_goals cases hok

/-- Witness for the colon-rejection theorem at the line `#if x:`, which
otherwise looks like a conditional directive. -/
theorem match_condition_rejects_colon_witness :
    endsWithChar (pyStrip "#if x:") ':' = true ∧
    (matchCondition "#if x:" = none ∧
     (∃ st2, scanLine ⟨[], []⟩ "#if x:" = .ok st2 ∧ st2.stack = ([] : List Cond)) ∧
     (∀ ps2, preprocessLine none ⟨0, none, [], [], []⟩ "#if x:" = .ok ps2 →
       ps2.includingSection = ([] : List Bool))) :=
  ⟨by decide,
   match_condition_rejects_colon "#if x:" ⟨[], []⟩ none ⟨0, none, [], [], []⟩ (by decide)⟩

/-! Merging: `_imerge` (lines 683-700) over `difflib.SequenceMatcher`
(CPython difflib, `isjunk=None`, `autojunk=True`). The matcher compares
the `Str` elements, whose equality is plain text equality, so it runs on
the texts of the tagged lines. All loops are modelled with structural
fuel so the functions evaluate inside the kernel. -/

/-- Lookup in the `j2len` dictionary with default 0 (`j2len.get(j-1, 0)`). -/
def dictGet (d : List (Nat × Nat)) (k : Nat) : Nat :=
  match d.find? (fun p => p.1 == k) with
  | some p => p.2
  | none => 0

/-- One `setdefault`-and-append step of the `b2j` construction. -/
def b2jAppend (m : List (String × List Nat)) (key : String) (idx : Nat) :
    List (String × List Nat) :=
  if m.any (fun p => p.1 == key) then
    m.map (fun p => if p.1 == key then (p.1, p.2 ++ [idx]) else p)
  else m ++ [(key, [idx])]

/-- Mapping from an element of `b` to its ascending list of indices. -/
def b2jBase (b : List String) : List (String × List Nat) :=
  b.enum.foldl (fun m p => b2jAppend m p.2 p.1) []

/-- Model of `SequenceMatcher.__chain_b` with `isjunk=None` and
`autojunk=True`: when `len(b) >= 200`, elements occurring more than
`len(b) // 100 + 1` times are dropped as popular. -/
def b2jBuild (b : List String) : List (String × List Nat) :=
  if 200 ≤ b.length then
    (b2jBase b).filter (fun p => !(b.length / 100 + 1 < p.2.length))
  else b2jBase b

/-- Dictionary access `b2j.get(a[i], [])`. -/
def b2jGet (m : List (String × List Nat)) (key : String) : List Nat :=
  match m.find? (fun p => p.1 == key) with
  | some p => p.2
  | none => []

/-- Inner loop of `find_longest_match` for one index `i` of `a`: walk the
index list of `a[i]` in `b` (ascending, so the `break` at `j >= bhi` is a
`takeWhile`), skip `j < blo`, fill the new `j2len` dictionary and update
the best match when a longer run appears. -/
def flmInner (j2len : List (Nat × Nat)) (js : List Nat) (blo bhi i : Nat)
    (best : Nat × Nat × Nat) : List (Nat × Nat) × (Nat × Nat × Nat) :=
  (js.takeWhile (fun j => j < bhi)).foldl
    (fun (acc : List (Nat × Nat) × (Nat × Nat × Nat)) j =>
      if j < blo then acc
      else
        let k := (if j = 0 then 0 else dictGet j2len (j - 1)) + 1
        let best2 := if acc.2.2.2 < k then (i + 1 - k, j + 1 - k, k) else acc.2
        ((j, k) :: acc.1, best2))
    ([], best)

/-- Backward extension loop of `find_longest_match` (no junk, so the junk
guard is always false); fuel bounds the downward steps. -/
def extendDown (a b : List String) (alo blo : Nat) :
    Nat → Nat × Nat × Nat → Nat × Nat × Nat
  | 0, best => best
  | fuel + 1, (besti, bestj, bestsize) =>
      if alo < besti ∧ blo < bestj ∧
         a.getD (besti - 1) "" = b.getD (bestj - 1) "" then
        extendDown a b alo blo fuel (besti - 1, bestj - 1, bestsize + 1)
      else (besti, bestj, bestsize)

/-- Forward extension loop of `find_longest_match`. -/
def extendUp (a b : List String) (ahi bhi : Nat) :
    Nat → Nat × Nat × Nat → Nat × Nat × Nat
  | 0, best => best
  | fuel + 1, (besti, bestj, bestsize) =>
      if besti + bestsize < ahi ∧ bestj + bestsize < bhi ∧
         a.getD (besti + bestsize) "" = b.getD (bestj + bestsize) "" then
        extendUp a b ahi bhi fuel (besti, bestj, bestsize + 1)
      else (besti, bestj, bestsize)

/-- Model of `SequenceMatcher.find_longest_match` on the range
`a[alo:ahi]`, `b[blo:bhi]`. -/
def findLongestMatch (a b : List String) (m : List (String × List Nat))
    (alo ahi blo bhi : Nat) : Nat × Nat × Nat :=
  let res := (List.range' alo (ahi - alo)).foldl
    (fun (acc : List (Nat × Nat) × (Nat × Nat × Nat)) i =>
      flmInner acc.1 (b2jGet m (a.getD i "")) blo bhi i acc.2)
    ([], (alo, blo, 0))
  extendUp a b ahi bhi ahi (extendDown a b alo blo res.2.1 res.2)

/-- Python tuple order on matching blocks, for `matching_blocks.sort()`. -/
def mbLe (x y : Nat × Nat × Nat) : Prop :=
  x.1 < y.1 ∨ (x.1 = y.1 ∧ (x.2.1 < y.2.1 ∨ (x.2.1 = y.2.1 ∧ x.2.2 ≤ y.2.2)))

instance : DecidableRel mbLe := fun x y =>
  inferInstanceAs (Decidable (x.1 < y.1 ∨ (x.1 = y.1 ∧
    (x.2.1 < y.2.1 ∨ (x.2.1 = y.2.1 ∧ x.2.2 ≤ y.2.2)))))

/-- Queue loop of `get_matching_blocks`: the Python list is used as a
stack (`append`/`pop` at the end), modelled head-first; the second
subregion is pushed last, hence popped first. -/
def gmbLoop (a b : List String) (m : List (String × List Nat)) :
    Nat → List (Nat × Nat × Nat × Nat) → List (Nat × Nat × Nat) →
    List (Nat × Nat × Nat)
  | 0, _, acc => acc
  | _ + 1, [], acc => acc
  | fuel + 1, (alo, ahi, blo, bhi) :: rest, acc =>
      match findLongestMatch a b m alo ahi blo bhi with
      | (i, j, k) =>
          if k ≠ 0 then
            gmbLoop a b m fuel
              ((if i + k < ahi ∧ j + k < bhi then [(i + k, ahi, j + k, bhi)] else []) ++
               (if alo < i ∧ blo < j then [(alo, i, blo, j)] else []) ++ rest)
              ((i, j, k) :: acc)
          else gmbLoop a b m fuel rest acc

/-- Collapse of adjacent blocks in `get_matching_blocks`, with the
running block `(i1, j1, k1)` (initially `(0, 0, 0)`). -/
def collapseBlocks : List (Nat × Nat × Nat) → Nat × Nat × Nat →
    List (Nat × Nat × Nat)
  | [], (i1, j1, k1) => if k1 ≠ 0 then [(i1, j1, k1)] else []
  | (i2, j2, k2) :: rest, (i1, j1, k1) =>
      if i1 + k1 = i2 ∧ j1 + k1 = j2 then collapseBlocks rest (i1, j1, k1 + k2)
      else if k1 ≠ 0 then (i1, j1, k1) :: collapseBlocks rest (i2, j2, k2)
      else collapseBlocks rest (i2, j2, k2)

/-- Model of `SequenceMatcher.get_matching_blocks`, ending with the
sentinel `(len(a), len(b), 0)`. -/
def getMatchingBlocks (a b : List String) : List (Nat × Nat × Nat) :=
  let m := b2jBuild b
  let blocks := gmbLoop a b m (2 * (a.length + b.length) + 2)
    [(0, a.length, 0, b.length)] []
  collapseBlocks (blocks.insertionSort mbLe) (0, 0, 0) ++ [(a.length, b.length, 0)]

/-- Opcode tags of `SequenceMatcher.get_opcodes`. -/
inductive OpTag where
  | replace
  | delete
  | insert
  | equal
deriving DecidableEq

/-- Walk of `get_opcodes` over the matching blocks, carrying the cursor
`(i, j)`. -/
def opcodesFrom : Nat → Nat → List (Nat × Nat × Nat) →
    List (OpTag × Nat × Nat × Nat × Nat)
  | _, _, [] => []
  | i, j, (ai, bj, size) :: rest =>
      (if i < ai ∧ j < bj then [(.replace, i, ai, j, bj)]
       else if i < ai then [(.delete, i, ai, j, bj)]
       else if j < bj then [(.insert, i, ai, j, bj)]
       else []) ++
      (if size ≠ 0 then [(.equal, ai, ai + size, bj, bj + size)] else []) ++
      opcodesFrom (ai + size) (bj + size) rest

/-- Model of `SequenceMatcher.get_opcodes`. -/
def getOpcodes (a b : List String) : List (OpTag × Nat × Nat × Nat × Nat) :=
  opcodesFrom 0 0 (getMatchingBlocks a b)

/-- Model of `_imerge`: walk the opcodes of the two tagged sequences
(compared on their texts); an `equal` run unions the tags of the zipped
line pairs (`line_a_tags + line_b_tags`, re-interned, with `tag_cache`
a pure memoisation), every other run yields the `a` lines then the `b`
lines. -/
def imerge (a b : List TLine) : List TLine :=
  (getOpcodes (a.map (·.1)) (b.map (·.1))).flatMap
    (fun op =>
      match op with
      | (.equal, i1, i2, j1, j2) =>
          (List.zip ((a.drop i1).take (i2 - i1)) ((b.drop j1).take (j2 - j1))).map
            (fun p => (p.1.1, groupAdd p.1.2 p.2.2))
      | (_, i1, i2, j1, j2) =>
          (a.drop i1).take (i2 - i1) ++ (b.drop j1).take (j2 - j1))

/-- C3 counterexample: with `A = [x tagged a]`, `B = [y tagged b]` and
`C = [x tagged c]`, merging `((A,B),C)` yields the texts `[x, y]` while
merging `(A,(B,C))` yields `[y, x]`: the sequences differ even on their
texts, hence under any tag normalisation. -/
theorem merge_not_associative_counterexample :
    imerge (imerge [("x\n", [[("a", true)]])] [("y\n", [[("b", true)]])])
        [("x\n", [[("c", true)]])] ≠
      imerge [("x\n", [[("a", true)]])]
        (imerge [("y\n", [[("b", true)]])] [("x\n", [[("c", true)]])]) ∧
    (imerge (imerge [("x\n", [[("a", true)]])] [("y\n", [[("b", true)]])])
        [("x\n", [[("c", true)]])]).map (fun l => l.1) ≠
      (imerge [("x\n", [[("a", true)]])]
        (imerge [("y\n", [[("b", true)]])] [("x\n", [[("c", true)]])])).map
        (fun l => l.1) := by
  decide

/-- C3 (amended): the tag union performed on an `equal` opcode
(`ConfigurationGroups.__add__`, which concatenates and re-sorts) is
associative, so the tags accumulated on a line surviving several merges
do not depend on the pairing order; the merged sequence itself does. -/
theorem merge_tag_union_associative (g1 g2 g3 : Group) :
    groupAdd (groupAdd g1 g2) g3 = groupAdd g1 (groupAdd g2 g3) := by
  unfold groupAdd
  apply mkGroup_eq_of_perm
  refine List.Perm.trans ((mkGroup_perm (g1 ++ g2)).append_right g3) ?_
  rw [List.append_assoc]
  exact ((mkGroup_perm (g2 ++ g3)).append_left g1).symm

/-! Deduplication of cython runs: `_run_cython_on_files` (lines 445-483)
with `_run_cython_on_file` (lines 406-443) and
`Configuration.attach_tags` (lines 134-138). A thread's value is the
tagged generated output, its configuration and the md5 of its joined
preprocessed input; md5 is modelled as the joined input itself (the hash
is assumed injective on the inputs of a run). The cython invocation is an
abstract deterministic function `gen` of the joined input. -/

/-- Model of `Configuration.attach_tags`: split the generated text on
newlines, drop a trailing empty part, re-append the newline and tag every
line with the singleton group of the configuration. -/
def attachTags (c : Config) (text : String) : List TLine :=
  (match (splitOnNl text.toList).getLast? with
   | some [] => (splitOnNl text.toList).dropLast
   | _ => splitOnNl text.toList).map (fun l => ((⟨l⟩ : String) ++ "\n", [c]))

/-- Texts of the attached lines of a generated output: the split parts
with the newline re-appended. -/
def attachTagsTexts (text : String) : List String :=
  (match (splitOnNl text.toList).getLast? with
   | some [] => (splitOnNl text.toList).dropLast
   | _ => splitOnNl text.toList).map (fun l => ((⟨l⟩ : String) ++ "\n"))

/-- Processing order of `_run_cython_on_files`
(`sorted(preprocessed.items())`, which compares the configurations). -/
def cfgPairLe (p q : Config × List String) : Prop := configLe p.1 q.1

instance : DecidableRel cfgPairLe := fun p q =>
  inferInstanceAs (Decidable (configLe p.1 q.1))

/-- Thread values of `_run_cython_on_files`, in processing order:
`(configuration.attach_tags(output), configuration, sourcehash)`. -/
def cythonThreadValues (gen : String → String)
    (inputs : List (Config × List String)) :
    List (List TLine × Config × String) :=
  (inputs.insertionSort cfgPairLe).map
    (fun p => (attachTags p.1 (gen (String.join p.2)), p.1, String.join p.2))

/-- Combination of two equal-hash tagged outputs, line by line:
`Str(line_a, (line_a.tags + line_b.tags).simplify_tags())`, where
`line_a` is the newly processed line. -/
def combineLines : List (TLine × TLine) → Except Unit (List TLine)
  | [] => .ok []
  | p :: rest =>
      match simplifyTags (groupAdd p.1.2 p.2.2) with
      | .error e => .error e
      | .ok g =>
          match combineLines rest with
          | .error e => .error e
          | .ok acc => .ok ((p.1.1, g) :: acc)

/-- Combination step with the `assert len(tagged_output) ==
len(other_tagged_output)` guard. -/
def combineTagged (neu old : List TLine) : Except Unit (List TLine) :=
  if neu.length = old.length then combineLines (neu.zip old) else .error ()

/-- Model of the `same_results` loop: a dictionary from source hash to the
(possibly combined) tagged output, in first-insertion order. -/
def sameResultsGo (m : List (String × List TLine)) :
    List (List TLine × Config × String) →
    Except Unit (List (String × List TLine))
  | [] => .ok m
  | v :: rest =>
      match m.find? (fun p => p.1 == v.2.2) with
      | none => sameResultsGo (m ++ [(v.2.2, v.1)]) rest
      | some entr =>
          match combineTagged v.1 entr.2 with
          | .error e => .error e
          | .ok combined =>
              sameResultsGo
                (m.map (fun p => if p.1 == v.2.2 then (p.1, combined) else p)) rest

/-- Model of the `ordered_results` loop: walk the threads in processing
order and append the (combined) result of a thread whose tagged output is
not already present, where Python's `in` compares the lines as strings,
i.e. on their texts. -/
def orderedResultsGo (same : List (String × List TLine)) :
    List (List TLine) → List (List TLine × Config × String) → List (List TLine)
  | acc, [] => acc
  | acc, v :: rest =>
      if acc.any (fun r => r.map (fun l => l.1) = v.1.map (fun l => l.1)) then
        orderedResultsGo same acc rest
      else
        orderedResultsGo same
          (acc ++ [(match same.find? (fun p => p.1 == v.2.2) with
                    | some p => p.2
                    | none => [])]) rest

/-- Model of `_run_cython_on_files`. -/
def runCythonOnFiles (gen : String → String)
    (inputs : List (Config × List String)) :
    Except Unit (List (List TLine)) :=
  match sameResultsGo [] (cythonThreadValues gen inputs) with
  | .error e => .error e
  | .ok same => .ok (orderedResultsGo same [] (cythonThreadValues gen inputs))

/-- C8 counterexample: the configurations `{X=False}` and `{X=True}` with
identical preprocessed input reach the combination step, whose
`simplify_tags` call dies on the pair of complementary single-condition
configurations (the subtraction empties one of them), so the whole run
raises instead of returning one combined copy. -/
theorem run_cython_on_files_crash_counterexample :
    runCythonOnFiles (fun s => s)
      [([("X", false)], ["l\n"]), ([("X", true)], ["l\n"])] = .error () := by
  have hsimp : simplifyTags [[("X", false)], [("X", true)]] = .error () :=
    simplifyTags_of_scan_error (by decide)
  have hcl : combineLines [(("l\n", [[("X", true)]]), ("l\n", [[("X", false)]]))] =
      .error () := by
    show (match simplifyTags (groupAdd [[("X", true)]] [[("X", false)]]) with
          | .error e => (.error e : Except Unit (List TLine))
          | .ok g =>
              match combineLines [] with
              | .error e => .error e
              | .ok acc => .ok (("l\n", g) :: acc)) = .error ()
    rw [show groupAdd [[("X", true)]] [[("X", false)]] =
          [[("X", false)], [("X", true)]] from by decide, hsimp]
  have hsg : sameResultsGo []
      (cythonThreadValues (fun s => s)
        [([("X", false)], ["l\n"]), ([("X", true)], ["l\n"])]) = .error () := by
    show (match combineTagged [("l\n", [[("X", true)]])] [("l\n", [[("X", false)]])] with
          | .error e => (.error e : Except Unit (List (String × List TLine)))
          | .ok combined =>
              sameResultsGo
                ([("l\n", [("l\n", [[("X", false)]])])].map
                  (fun (p : String × List TLine) =>
                    if p.1 == "l\n" then (p.1, combined) else p)) []) =
        .error ()
    rw [show combineTagged [("l\n", [[("X", true)]])] [("l\n", [[("X", false)]])] =
          combineLines [(("l\n", [[("X", true)]]), ("l\n", [[("X", false)]]))] from rfl,
        hcl]
  unfold runCythonOnFiles
  rw [hsg]

theorem combineLines_const_tags {g : Group} (gT gF : Group)
    (hs : simplifyTags (groupAdd gT gF) = .ok g) :
    ∀ ts : List String,
      combineLines (ts.map (fun t => ((t, gT), (t, gF)))) =
        .ok (ts.map (fun t => (t, g)))
  | [] => rfl
  | t :: rest => by
      show (match simplifyTags (groupAdd gT gF) with
            | .error e => (.error e : Except Unit (List TLine))
            | .ok g2 =>
                match combineLines (rest.map (fun t => ((t, gT), (t, gF)))) with
                | .error e => .error e
                | .ok acc => .ok ((t, g2) :: acc)) = _
      rw [hs, combineLines_const_tags gT gF hs rest]
      rfl

/-- C8 (amended): for a run of two configurations, in processing order,
with identical preprocessed input, when `simplify_tags` survives the
combined pair of tags the merged result list holds exactly one copy of
the generated text, each line carrying the simplified union of the two
configurations' tags. -/
theorem run_cython_on_files_dedup (gen : String → String)
    (c1 c2 : Config) (lines : List String) (g : Group)
    (hle : configLe c1 c2)
    (hsimp : simplifyTags (groupAdd [c2] [c1]) = .ok g) :
    runCythonOnFiles gen [(c1, lines), (c2, lines)] =
      .ok [(attachTags c2 (gen (String.join lines))).map (fun l => (l.1, g))] := by
  have hsort : List.insertionSort cfgPairLe [(c1, lines), (c2, lines)] =
      [(c1, lines), (c2, lines)] := by
    show List.orderedInsert cfgPairLe (c1, lines)
        (List.orderedInsert cfgPairLe (c2, lines) []) = _
    show (if cfgPairLe (c1, lines) (c2, lines) then
            (c1, lines) :: [(c2, lines)]
          else (c2, lines) :: List.orderedInsert cfgPairLe (c1, lines) []) = _
    rw [if_pos (show cfgPairLe (c1, lines) (c2, lines) from hle)]
  have hvals : cythonThreadValues gen [(c1, lines), (c2, lines)] =
      [(attachTags c1 (gen (String.join lines)), c1, String.join lines),
       (attachTags c2 (gen (String.join lines)), c2, String.join lines)] := by
    unfold cythonThreadValues
    rw [hsort]
    rfl
  have hparts : ∀ c : Config, attachTags c (gen (String.join lines)) =
      (attachTagsTexts (gen (String.join lines))).map (fun t => (t, [c])) := by
    intro c
    unfold attachTags attachTagsTexts
    rw [List.map_map]
    rfl
  have hct : combineTagged (attachTags c2 (gen (String.join lines)))
      (attachTags c1 (gen (String.join lines))) =
      .ok ((attachTagsTexts (gen (String.join lines))).map (fun t => (t, g))) := by
    unfold combineTagged
    rw [if_pos (by rw [hparts c2, hparts c1, List.length_map, List.length_map])]
    rw [hparts c2, hparts c1, List.zip_map']
    exact combineLines_const_tags [c2] [c1] hsimp _
  have hfind : ∀ v : List TLine,
      List.find? (fun (p : String × List TLine) => p.1 == String.join lines)
        [(String.join lines, v)] = some (String.join lines, v) := by
    intro v
    simp [List.find?]
  have hsg : sameResultsGo []
      (cythonThreadValues gen [(c1, lines), (c2, lines)]) =
      .ok [(String.join lines,
        (attachTagsTexts (gen (String.join lines))).map (fun t => (t, g)))] := by
    rw [hvals]
    show (match List.find? (fun (p : String × List TLine) => p.1 == String.join lines)
            [(String.join lines, attachTags c1 (gen (String.join lines)))] with
          | none =>
              sameResultsGo
                ([(String.join lines, attachTags c1 (gen (String.join lines)))] ++
                  [(String.join lines, attachTags c2 (gen (String.join lines)))])
                []
          | some entr =>
              match combineTagged (attachTags c2 (gen (String.join lines))) entr.2 with
              | .error e => .error e
              | .ok combined =>
                  sameResultsGo
                    ([(String.join lines, attachTags c1 (gen (String.join lines)))].map
                      (fun (p : String × List TLine) =>
                        if p.1 == String.join lines then (p.1, combined) else p))
                    []) = _
    rw [hfind]
    show (match combineTagged (attachTags c2 (gen (String.join lines)))
            (attachTags c1 (gen (String.join lines))) with
          | .error e => (.error e : Except Unit (List (String × List TLine)))
          | .ok combined =>
              sameResultsGo
                ([(String.join lines, attachTags c1 (gen (String.join lines)))].map
                  (fun (p : String × List TLine) =>
                    if p.1 == String.join lines then (p.1, combined) else p))
                []) = _
    rw [hct]
    show Except.ok
        ([(String.join lines, attachTags c1 (gen (String.join lines)))].map
          (fun (p : String × List TLine) => if p.1 == String.join lines
            then (p.1, (attachTagsTexts (gen (String.join lines))).map (fun t => (t, g)))
            else p)) = _
    simp
  have htexts : ((attachTagsTexts (gen (String.join lines))).map
      (fun t => (t, g))).map (fun l => l.1) =
      (attachTags c2 (gen (String.join lines))).map (fun l => l.1) := by
    rw [hparts c2, List.map_map, List.map_map]
    rfl
  have hor : orderedResultsGo
      [(String.join lines,
        (attachTagsTexts (gen (String.join lines))).map (fun t => (t, g)))]
      [] (cythonThreadValues gen [(c1, lines), (c2, lines)]) =
      [(attachTagsTexts (gen (String.join lines))).map (fun t => (t, g))] := by
    rw [hvals]
    show orderedResultsGo _
        ([] ++ [(match List.find? (fun (p : String × List TLine) =>
                    p.1 == String.join lines)
                  [(String.join lines,
                    (attachTagsTexts (gen (String.join lines))).map (fun t => (t, g)))] with
                | some p => p.2
                | none => [])])
        [(attachTags c2 (gen (String.join lines)), c2, String.join lines)] = _
    rw [hfind]
    show orderedResultsGo _
        [(attachTagsTexts (gen (String.join lines))).map (fun t => (t, g))]
        [(attachTags c2 (gen (String.join lines)), c2, String.join lines)] = _
    show (if [(attachTagsTexts (gen (String.join lines))).map (fun t => (t, g))].any
            (fun r => r.map (fun l => l.1) =
              (attachTags c2 (gen (String.join lines))).map (fun l => l.1)) then
            orderedResultsGo _
              [(attachTagsTexts (gen (String.join lines))).map (fun t => (t, g))] []
          else _) = _
    rw [if_pos (by simp [htexts])]
    rfl
  unfold runCythonOnFiles
  rw [hsg]
  show Except.ok (orderedResultsGo
      [(String.join lines,
        (attachTagsTexts (gen (String.join lines))).map (fun t => (t, g)))]
      [] (cythonThreadValues gen [(c1, lines), (c2, lines)])) = _
  rw [hor, hparts c2, List.map_map]
  rfl

/-- Witness for the deduplication theorem at the configurations
`{X=False, Y=False}` and `{X=False, Y=True}` with the one-line input
`l`, where the combined tag pair survives `simplify_tags` unchanged. -/
theorem run_cython_on_files_dedup_witness :
    configLe [("X", false), ("Y", false)] [("X", false), ("Y", true)] ∧
    simplifyTags (groupAdd [[("X", false), ("Y", true)]]
        [[("X", false), ("Y", false)]]) =
      .ok [[("X", false), ("Y", false)], [("X", false), ("Y", true)]] ∧
    runCythonOnFiles (fun s => s)
        [([("X", false), ("Y", false)], ["l\n"]),
         ([("X", false), ("Y", true)], ["l\n"])] =
      .ok [(attachTags [("X", false), ("Y", true)]
          ((fun (s : String) => s) (String.join ["l\n"]))).map
        (fun l => (l.1,
          [[("X", false), ("Y", false)], [("X", false), ("Y", true)]]))] := by
  have hs : simplifyTags (groupAdd [[("X", false), ("Y", true)]]
      [[("X", false), ("Y", false)]]) =
      .ok [[("X", false), ("Y", false)], [("X", false), ("Y", true)]] := by
    rw [show groupAdd [[("X", false), ("Y", true)]] [[("X", false), ("Y", false)]] =
        [[("X", false), ("Y", false)], [("X", false), ("Y", true)]] from by decide]
    exact simplifyTags_of_scan_none (by decide)
  exact ⟨by decide, hs,
    run_cython_on_files_dedup (fun s => s) [("X", false), ("Y", false)]
      [("X", false), ("Y", true)] ["l\n"]
      [[("X", false), ("Y", false)], [("X", false), ("Y", true)]] (by decide) hs⟩

end Cythonpp
